import Mathlib

/-!
Verification of the tornado-halo2 constraint-system construction layer.

The circuit builder below is a shallow embedding of the Halo2 synthesis
performed by the repository: regions are stacked consecutively (the
SimpleFloorPlanner places every region, all of which use the same three
advice columns, directly under the previous one), so synthesis is modelled
as a state that accumulates, row by row, the assigned advice values of the
three columns, the rows on which each selector is enabled, the copy
constraints, and the instance (public-input) bindings.  The gate
polynomials are transcribed from the chips' configure functions, and an
assignment of the grid satisfies the circuit when every gate polynomial
vanishes on every row (with the selector evaluating to 1 on enabled rows
and 0 elsewhere), every copy constraint equates its two cells, and every
instance binding equates its cell with the public-input value.
-/

namespace Tornado

/-- A cell reference: absolute row paired with the advice column index. -/
abbrev CellRef := ℕ × Fin 3

/-- The witness-independent part of a synthesized circuit: the number of
allocated rows, the rows on which each of the three selectors is enabled,
the copy constraints, and the instance bindings. -/
structure Shape where
  nRows : ℕ
  hashRows : List ℕ
  swapRows : List ℕ
  boolRows : List ℕ
  copies : List (CellRef × CellRef)
  binds : List (CellRef × ℕ)
deriving DecidableEq

/-- The full synthesis state: the advice values of the three columns for
every allocated row, plus the shape data accumulated so far. -/
structure Builder (F : Type) where
  rows : List (F × F × F)
  hashRows : List ℕ
  swapRows : List ℕ
  boolRows : List ℕ
  copies : List (CellRef × CellRef)
  binds : List (CellRef × ℕ)

/-- An assigned cell: its position and the value it carries, mirroring
halo2's AssignedCell. -/
structure ACell (F : Type) where
  row : ℕ
  col : Fin 3
  val : F

/-- Project one advice column out of a row triple. -/
def colVal {F : Type} (t : F × F × F) (c : Fin 3) : F :=
  if c.val = 0 then t.1 else if c.val = 1 then t.2.1 else t.2.2

/-- The value of the cell grid at (row, column); unassigned cells read 0. -/
def assignRows {F : Type} [Zero F] (rows : List (F × F × F)) (r : ℕ) (c : Fin 3) : F :=
  colVal (rows.getD r (0, 0, 0)) c

/-- The assignment function of a builder's own (honestly synthesized) grid. -/
def Builder.assign {F : Type} [Zero F] (b : Builder F) : ℕ → Fin 3 → F :=
  assignRows b.rows

/-- The shape of a builder: everything except the advice values. -/
def Builder.shape {F : Type} (b : Builder F) : Shape :=
  ⟨b.rows.length, b.hashRows, b.swapRows, b.boolRows, b.copies, b.binds⟩

/-- The empty synthesis state. -/
def Builder.empty (F : Type) : Builder F := ⟨[], [], [], [], [], []⟩

/-- layouter.constrain_instance: bind an advice cell to row k of the
instance column. -/
def Builder.constrain_instance {F : Type} (b : Builder F) (c : CellRef) (k : ℕ) :
    Builder F :=
  { b with binds := b.binds ++ [(c, k)] }

/-- HashChip::hash (src/chips/hash.rs): allocate one new row, enable the
hash selector on it, copy the two input cells into advice columns 0 and 1
(copy_advice assigns the value and records a copy constraint), assign
advice column 2 to the product of the two input values, and return the
output cell. -/
def HashChip.hash {F : Type} [Field F] (b : Builder F)
    (left_cell right_cell : ACell F) : Builder F × ACell F :=
  let r := b.rows.length
  let out := left_cell.val * right_cell.val
  (⟨b.rows ++ [(left_cell.val, right_cell.val, out)],
    b.hashRows ++ [r], b.swapRows, b.boolRows,
    b.copies ++ [((left_cell.row, left_cell.col), (r, 0)),
                 ((right_cell.row, right_cell.col), (r, 1))],
    b.binds⟩,
   ⟨r, 2, out⟩)

/-- TornadoChip::compute_hash (src/chips/tornado.rs): assign the two input
values into advice columns 0 and 1 of a fresh one-row region (no selector,
no constraint), then hash the two freshly assigned cells. -/
def TornadoChip.compute_hash {F : Type} [Field F] (b : Builder F)
    (left_value right_value : F) : Builder F × ACell F :=
  let r := b.rows.length
  let b1 : Builder F := { b with rows := b.rows ++ [(left_value, right_value, 0)] }
  HashChip.hash b1 ⟨r, 0, left_value⟩ ⟨r, 1, right_value⟩

/-- MerkleChip::merkle_prove_layer (src/chips/merkle.rs): allocate a
two-row region; row 0 holds (node, neighbor, swap_bit) with the swap and
boolean selectors enabled and the node cell copied in; row 1 holds the
pair computed off-circuit as (node, neighbor) if the swap bit is zero and
(neighbor, node) otherwise; then hash the row-1 pair. -/
def MerkleChip.merkle_prove_layer {F : Type} [Field F] [DecidableEq F]
    (b : Builder F) (node_cell : ACell F) (neighbor swap_bit : F) :
    Builder F × ACell F :=
  let r := b.rows.length
  let lr : F × F :=
    if swap_bit = 0 then (node_cell.val, neighbor) else (neighbor, node_cell.val)
  let b1 : Builder F :=
    ⟨b.rows ++ [(node_cell.val, neighbor, swap_bit), (lr.1, lr.2, 0)],
     b.hashRows, b.swapRows ++ [r], b.boolRows ++ [r],
     b.copies ++ [((node_cell.row, node_cell.col), (r, 0))],
     b.binds⟩
  HashChip.hash b1 ⟨r + 1, 0, lr.1⟩ ⟨r + 1, 1, lr.2⟩

/-- MerkleChip::prove_tree_root (src/chips/merkle.rs): fold
merkle_prove_layer over the path.  The Rust loop runs over the indices of
path_elements and indexes path_indices at each of them, so it aborts
(index out of bounds) when path_indices runs out first, and silently
ignores surplus path_indices entries; the abort is modelled as none. -/
def MerkleChip.prove_tree_root {F : Type} [Field F] [DecidableEq F] :
    Builder F → ACell F → List F → List F → Option (Builder F × ACell F)
  | b, leaf, [], _ => some (b, leaf)
  | _, _, _ :: _, [] => none
  | b, leaf, e :: es, i :: is =>
    let p := MerkleChip.merkle_prove_layer b leaf e i
    MerkleChip.prove_tree_root p.1 p.2 es is

/-- HashCircuit::synthesize (src/circuits/hash.rs): assign the two private
inputs into a one-row region, hash them, and bind the result to instance
row 0. -/
def HashCircuit.synthesize {F : Type} [Field F] (a b : F) : Builder F :=
  let b0 : Builder F := { Builder.empty F with rows := [(a, b, 0)] }
  let p := HashChip.hash b0 ⟨0, 0, a⟩ ⟨0, 1, b⟩
  p.1.constrain_instance (p.2.row, p.2.col) 0

/-- MerkleCircuit::synthesize (src/circuits/merkle.rs): assign the leaf
into advice column 0 of a one-row region, bind it to instance row 0, fold
the path with prove_tree_root, and bind the resulting root cell to
instance row 1. -/
def MerkleCircuit.synthesize {F : Type} [Field F] [DecidableEq F] (leaf : F)
    (path_elements path_indices : List F) : Option (Builder F) :=
  let b0 : Builder F := { Builder.empty F with rows := [(leaf, 0, 0)] }
  let b1 := b0.constrain_instance (0, 0) 0
  match MerkleChip.prove_tree_root b1 ⟨0, 0, leaf⟩ path_elements path_indices with
  | none => none
  | some (b2, root) => some (b2.constrain_instance (root.row, root.col) 1)

/-- The Tornado synthesis with the four hash-input values taken as
independent parameters; TornadoCircuit::synthesize instantiates them as
(nullifier, nullifier) and (nullifier, secret). -/
def tornadoGen {F : Type} [Field F] [DecidableEq F] (x y z w : F)
    (path_elements path_indices : List F) : Option (Builder F) :=
  let p1 := TornadoChip.compute_hash (Builder.empty F) x y
  let b1 := p1.1.constrain_instance (p1.2.row, p1.2.col) 0
  let p2 := TornadoChip.compute_hash b1 z w
  match MerkleChip.prove_tree_root p2.1 p2.2 path_elements path_indices with
  | none => none
  | some (b3, root) => some (b3.constrain_instance (root.row, root.col) 1)

/-- TornadoCircuit::synthesize (src/main.rs): hash (nullifier, nullifier)
and bind the result to instance row 0; hash (nullifier, secret) to obtain
the commitment; fold the commitment through the Merkle path; bind the
resulting root cell to instance row 1. -/
def TornadoCircuit.synthesize {F : Type} [Field F] [DecidableEq F]
    (nullifier secret : F) (path_elements path_indices : List F) :
    Option (Builder F) :=
  let p1 := TornadoChip.compute_hash (Builder.empty F) nullifier nullifier
  let b1 := p1.1.constrain_instance (p1.2.row, p1.2.col) 0
  let p2 := TornadoChip.compute_hash b1 nullifier secret
  match MerkleChip.prove_tree_root p2.1 p2.2 path_elements path_indices with
  | none => none
  | some (b3, root) => some (b3.constrain_instance (root.row, root.col) 1)

/-- hash_values (src/main.rs): the placeholder hash is the product of the
values. -/
def hash_values {F : Type} [Field F] (values : List F) : F := values.prod

/-- hash_value (src/main.rs): the self-hash of one value. -/
def hash_value {F : Type} [Field F] (value : F) : F := hash_values [value, value]

/-- The loop body of compute_root (src/main.rs): fold the node through the
path, ordering each pair by the path index before multiplying. -/
def computeRootGo {F : Type} [Field F] [DecidableEq F] : F → List F → List F → F
  | node, [], _ => node
  | node, _ :: _, [] => node
  | node, e :: es, i :: is =>
    let lr : F × F := if i = 0 then (node, e) else (e, node)
    computeRootGo (hash_values [lr.1, lr.2]) es is

/-- compute_root (src/main.rs): asserts that the two path sequences have
equal length (modelled as none on mismatch), then folds the leaf through
the path. -/
def compute_root {F : Type} [Field F] [DecidableEq F] (leaf : F)
    (path_elements path_indices : List F) : Option F :=
  if path_elements.length = path_indices.length then
    some (computeRootGo leaf path_elements path_indices)
  else none

/-- The hash gate polynomial of HashChip::configure:
s * (a * b - hash_result). -/
def hashGatePoly {F : Type} [Field F] (s a b hash_result : F) : F :=
  s * (a * b - hash_result)

/-- The boolean gate polynomial of MerkleChip::configure:
s * swap_bit * (1 - swap_bit). -/
def boolGatePoly {F : Type} [Field F] (s swap_bit : F) : F :=
  s * swap_bit * (1 - swap_bit)

/-- The first swap gate polynomial of MerkleChip::configure:
s * ((right_cur - left_cur) * swap_bit + left_cur - left_next). -/
def swapGatePoly1 {F : Type} [Field F] (s left_cur right_cur swap_bit left_next : F) :
    F :=
  s * ((right_cur - left_cur) * swap_bit + left_cur - left_next)

/-- The second swap gate polynomial of MerkleChip::configure:
s * ((left_cur - right_cur) * swap_bit + right_cur - right_next). -/
def swapGatePoly2 {F : Type} [Field F] (s left_cur right_cur swap_bit right_next : F) :
    F :=
  s * ((left_cur - right_cur) * swap_bit + right_cur - right_next)

/-- The value of a selector column on a row: 1 on enabled rows, 0 elsewhere. -/
def selVal {F : Type} [Field F] (rows : List ℕ) (r : ℕ) : F :=
  if r ∈ rows then 1 else 0

/-- An assignment A of the advice grid together with a public-input column
inst satisfies a shape when every gate polynomial vanishes on every row,
every copy constraint equates its two cells, and every instance binding
equates its cell with the public input. -/
def Satisfies {F : Type} [Field F] (sh : Shape) (A : ℕ → Fin 3 → F)
    (inst : ℕ → F) : Prop :=
  (∀ r : ℕ, hashGatePoly (selVal sh.hashRows r) (A r 0) (A r 1) (A r 2) = 0) ∧
  (∀ r : ℕ, boolGatePoly (selVal sh.boolRows r) (A r 2) = 0) ∧
  (∀ r : ℕ,
    swapGatePoly1 (selVal sh.swapRows r) (A r 0) (A r 1) (A r 2) (A (r + 1) 0) = 0) ∧
  (∀ r : ℕ,
    swapGatePoly2 (selVal sh.swapRows r) (A r 0) (A r 1) (A r 2) (A (r + 1) 1) = 0) ∧
  (∀ p ∈ sh.copies, A p.1.1 p.1.2 = A p.2.1 p.2.2) ∧
  (∀ p ∈ sh.binds, A p.1.1 p.1.2 = inst p.2)

/-- The public-input column holding x at row 0 and y at row 1 (the
MockProver instance vector [x, y], padded with zeros). -/
def instOf {F : Type} [Field F] (x y : F) : ℕ → F :=
  fun k => if k = 0 then x else if k = 1 then y else 0

theorem colVal_zero {F : Type} (t : F × F × F) : colVal t 0 = t.1 := rfl

theorem colVal_one {F : Type} (t : F × F × F) : colVal t 1 = t.2.1 := rfl

theorem colVal_two {F : Type} (t : F × F × F) : colVal t 2 = t.2.2 := rfl

theorem assignRows_append_lt {F : Type} [Zero F] (rows l : List (F × F × F))
    (r : ℕ) (c : Fin 3) (h : r < rows.length) :
    assignRows (rows ++ l) r c = assignRows rows r c := by
  unfold assignRows
  rw [List.getD_append _ _ _ _ h]

theorem assignRows_append_at {F : Type} [Zero F] (rows l : List (F × F × F))
    (k : ℕ) (c : Fin 3) :
    assignRows (rows ++ l) (rows.length + k) c = assignRows l k c := by
  unfold assignRows
  rw [List.getD_append_right _ _ _ _ (Nat.le_add_right _ _)]
  congr 2
  omega

theorem hashGatePoly_sel_zero {F : Type} [Field F] (a b c : F) :
    hashGatePoly 0 a b c = 0 := by
  simp [hashGatePoly]

theorem hashGatePoly_sel_one {F : Type} [Field F] (a b c : F) :
    hashGatePoly 1 a b c = 0 ↔ c = a * b := by
  rw [hashGatePoly, one_mul, sub_eq_zero]
  exact eq_comm

theorem boolGatePoly_sel_zero {F : Type} [Field F] (x : F) :
    boolGatePoly 0 x = 0 := by
  simp [boolGatePoly]

theorem boolGatePoly_sel_one {F : Type} [Field F] (x : F) :
    boolGatePoly 1 x = 0 ↔ x = 0 ∨ x = 1 := by
  rw [boolGatePoly, one_mul]
  constructor
  · intro h
    rcases mul_eq_zero.mp h with h0 | h1
    · exact Or.inl h0
    · exact Or.inr (sub_eq_zero.mp h1).symm
  · rintro (rfl | rfl) <;> ring

theorem swapGatePoly1_sel_zero {F : Type} [Field F] (l r bit l' : F) :
    swapGatePoly1 0 l r bit l' = 0 := by
  simp [swapGatePoly1]

theorem swapGatePoly2_sel_zero {F : Type} [Field F] (l r bit r' : F) :
    swapGatePoly2 0 l r bit r' = 0 := by
  simp [swapGatePoly2]

theorem swapGatePoly1_sel_one {F : Type} [Field F] (l r bit l' : F) :
    swapGatePoly1 1 l r bit l' = 0 ↔ l' = (r - l) * bit + l := by
  rw [swapGatePoly1, one_mul, sub_eq_zero]
  exact eq_comm

theorem swapGatePoly2_sel_one {F : Type} [Field F] (l r bit r' : F) :
    swapGatePoly2 1 l r bit r' = 0 ↔ r' = (l - r) * bit + r := by
  rw [swapGatePoly2, one_mul, sub_eq_zero]
  exact eq_comm

theorem Satisfies.hash_row {F : Type} [Field F] {sh : Shape} {A : ℕ → Fin 3 → F}
    {inst : ℕ → F} (h : Satisfies sh A inst) {r : ℕ} (hr : r ∈ sh.hashRows) :
    A r 2 = A r 0 * A r 1 := by
  have hp := h.1 r
  rw [selVal, if_pos hr, hashGatePoly_sel_one] at hp
  exact hp

theorem Satisfies.bool_row {F : Type} [Field F] {sh : Shape} {A : ℕ → Fin 3 → F}
    {inst : ℕ → F} (h : Satisfies sh A inst) {r : ℕ} (hr : r ∈ sh.boolRows) :
    A r 2 = 0 ∨ A r 2 = 1 := by
  have hp := h.2.1 r
  rw [selVal, if_pos hr, boolGatePoly_sel_one] at hp
  exact hp

theorem Satisfies.swap_row_left {F : Type} [Field F] {sh : Shape} {A : ℕ → Fin 3 → F}
    {inst : ℕ → F} (h : Satisfies sh A inst) {r : ℕ} (hr : r ∈ sh.swapRows) :
    A (r + 1) 0 = (A r 1 - A r 0) * A r 2 + A r 0 := by
  have hp := h.2.2.1 r
  rw [selVal, if_pos hr, swapGatePoly1_sel_one] at hp
  exact hp

theorem Satisfies.swap_row_right {F : Type} [Field F] {sh : Shape} {A : ℕ → Fin 3 → F}
    {inst : ℕ → F} (h : Satisfies sh A inst) {r : ℕ} (hr : r ∈ sh.swapRows) :
    A (r + 1) 1 = (A r 0 - A r 1) * A r 2 + A r 1 := by
  have hp := h.2.2.2.1 r
  rw [selVal, if_pos hr, swapGatePoly2_sel_one] at hp
  exact hp

theorem Satisfies.copy_eq {F : Type} [Field F] {sh : Shape} {A : ℕ → Fin 3 → F}
    {inst : ℕ → F} (h : Satisfies sh A inst) {p : CellRef × CellRef}
    (hp : p ∈ sh.copies) : A p.1.1 p.1.2 = A p.2.1 p.2.2 :=
  h.2.2.2.2.1 p hp

theorem Satisfies.bind_eq {F : Type} [Field F] {sh : Shape} {A : ℕ → Fin 3 → F}
    {inst : ℕ → F} (h : Satisfies sh A inst) {p : CellRef × ℕ}
    (hp : p ∈ sh.binds) : A p.1.1 p.1.2 = inst p.2 :=
  h.2.2.2.2.2 p hp

/-- All gate and copy constraints accumulated in a builder hold of the
builder's own grid, with every referenced row already allocated. -/
def Builder.GatesOk {F : Type} [Field F] (b : Builder F) : Prop :=
  (∀ r ∈ b.hashRows, r < b.rows.length ∧ b.assign r 2 = b.assign r 0 * b.assign r 1) ∧
  (∀ r ∈ b.boolRows, r < b.rows.length ∧ (b.assign r 2 = 0 ∨ b.assign r 2 = 1)) ∧
  (∀ r ∈ b.swapRows, r + 1 < b.rows.length ∧
    b.assign (r + 1) 0 = (b.assign r 1 - b.assign r 0) * b.assign r 2 + b.assign r 0 ∧
    b.assign (r + 1) 1 = (b.assign r 0 - b.assign r 1) * b.assign r 2 + b.assign r 1) ∧
  (∀ p ∈ b.copies, p.1.1 < b.rows.length ∧ p.2.1 < b.rows.length ∧
    b.assign p.1.1 p.1.2 = b.assign p.2.1 p.2.2)

/-- All instance bindings accumulated in a builder hold of the builder's
own grid against the public-input column inst. -/
def Builder.BindsOk {F : Type} [Field F] (b : Builder F) (inst : ℕ → F) : Prop :=
  ∀ p ∈ b.binds, p.1.1 < b.rows.length ∧ b.assign p.1.1 p.1.2 = inst p.2

/-- An assigned cell matches the builder's grid and lies inside it. -/
def Builder.CellOk {F : Type} [Field F] (b : Builder F) (c : ACell F) : Prop :=
  c.row < b.rows.length ∧ b.assign c.row c.col = c.val

theorem satisfies_of_ok {F : Type} [Field F] {b : Builder F} {inst : ℕ → F}
    (hg : b.GatesOk) (hb : b.BindsOk inst) : Satisfies b.shape b.assign inst := by
  obtain ⟨hHash, hBool, hSwap, hCopy⟩ := hg
  refine ⟨fun r => ?_, fun r => ?_, fun r => ?_, fun r => ?_, fun p hp => ?_,
    fun p hp => ?_⟩
  · by_cases hr : r ∈ b.shape.hashRows
    · rw [selVal, if_pos hr, hashGatePoly_sel_one]
      exact (hHash r hr).2
    · rw [selVal, if_neg hr]
      exact hashGatePoly_sel_zero _ _ _
  · by_cases hr : r ∈ b.shape.boolRows
    · rw [selVal, if_pos hr, boolGatePoly_sel_one]
      exact (hBool r hr).2
    · rw [selVal, if_neg hr]
      exact boolGatePoly_sel_zero _
  · by_cases hr : r ∈ b.shape.swapRows
    · rw [selVal, if_pos hr, swapGatePoly1_sel_one]
      exact (hSwap r hr).2.1
    · rw [selVal, if_neg hr]
      exact swapGatePoly1_sel_zero _ _ _ _
  · by_cases hr : r ∈ b.shape.swapRows
    · rw [selVal, if_pos hr, swapGatePoly2_sel_one]
      exact (hSwap r hr).2.2
    · rw [selVal, if_neg hr]
      exact swapGatePoly2_sel_zero _ _ _ _
  · exact (hCopy p hp).2.2
  · exact (hb p hp).2

theorem assignRows_append_fst {F : Type} [Zero F] (rows : List (F × F × F))
    (t : F × F × F) (l : List (F × F × F)) (c : Fin 3) :
    assignRows (rows ++ t :: l) rows.length c = colVal t c := by
  have h := assignRows_append_at rows (t :: l) 0 c
  simpa [assignRows, List.getD] using h

theorem assignRows_append_snd {F : Type} [Zero F] (rows : List (F × F × F))
    (t t' : F × F × F) (l : List (F × F × F)) (c : Fin 3) :
    assignRows (rows ++ t :: t' :: l) (rows.length + 1) c = colVal t' c := by
  have h := assignRows_append_at rows (t :: t' :: l) 1 c
  simpa [assignRows, List.getD] using h

theorem hash_values_pair {F : Type} [Field F] (a b : F) :
    hash_values [a, b] = a * b := by
  simp [hash_values]

theorem hash_step {F : Type} [Field F] {b : Builder F} {inst : ℕ → F}
    (lc rc : ACell F) (hg : b.GatesOk) (hbind : b.BindsOk inst)
    (hl : b.CellOk lc) (hr : b.CellOk rc) :
    (HashChip.hash b lc rc).1.GatesOk ∧
    (HashChip.hash b lc rc).1.BindsOk inst ∧
    (HashChip.hash b lc rc).1.CellOk (HashChip.hash b lc rc).2 ∧
    (HashChip.hash b lc rc).2 = ⟨b.rows.length, 2, lc.val * rc.val⟩ ∧
    (HashChip.hash b lc rc).1.rows.length = b.rows.length + 1 ∧
    (HashChip.hash b lc rc).1.binds = b.binds ∧
    (∀ c : ACell F, b.CellOk c → (HashChip.hash b lc rc).1.CellOk c) := by
  obtain ⟨hHash, hBool, hSwap, hCopy⟩ := hg
  have hlen : (HashChip.hash b lc rc).1.rows.length = b.rows.length + 1 := by
    simp [HashChip.hash]
  have hold : ∀ (r : ℕ) (c : Fin 3), r < b.rows.length →
      (HashChip.hash b lc rc).1.assign r c = b.assign r c := by
    intro r c hrc
    simp only [HashChip.hash, Builder.assign]
    exact assignRows_append_lt _ _ _ _ hrc
  have hnew : ∀ c : Fin 3, (HashChip.hash b lc rc).1.assign b.rows.length c =
      colVal (lc.val, rc.val, lc.val * rc.val) c := by
    intro c
    simp only [HashChip.hash, Builder.assign]
    exact assignRows_append_fst _ _ _ _
  have hkeep : ∀ c : ACell F, b.CellOk c → (HashChip.hash b lc rc).1.CellOk c := by
    intro c hc
    exact ⟨by rw [hlen]; exact Nat.lt_succ_of_lt hc.1, by rw [hold _ _ hc.1]; exact hc.2⟩
  refine ⟨⟨?_, ?_, ?_, ?_⟩, ?_, ?_, rfl, hlen, rfl, hkeep⟩
  · intro r hrr
    rcases List.mem_append.mp hrr with h | h
    · refine ⟨by rw [hlen]; exact Nat.lt_succ_of_lt (hHash r h).1, ?_⟩
      rw [hold _ _ (hHash r h).1, hold _ _ (hHash r h).1, hold _ _ (hHash r h).1]
      exact (hHash r h).2
    · rcases List.mem_singleton.mp h with rfl
      refine ⟨by rw [hlen]; omega, ?_⟩
      rw [hnew, hnew, hnew, colVal_zero, colVal_one, colVal_two]
  · intro r hrr
    refine ⟨by rw [hlen]; exact Nat.lt_succ_of_lt (hBool r hrr).1, ?_⟩
    rw [hold _ _ (hBool r hrr).1]
    exact (hBool r hrr).2
  · intro r hrr
    have hb1 := (hSwap r hrr).1
    refine ⟨by rw [hlen]; omega, ?_, ?_⟩
    · rw [hold _ _ (by omega), hold _ _ (by omega), hold _ _ (by omega),
        hold _ _ (by omega)]
      exact (hSwap r hrr).2.1
    · rw [hold _ _ (by omega), hold _ _ (by omega), hold _ _ (by omega),
        hold _ _ (by omega)]
      exact (hSwap r hrr).2.2
  · intro p hp
    rcases List.mem_append.mp hp with h | h
    · refine ⟨by rw [hlen]; exact Nat.lt_succ_of_lt (hCopy p h).1, by
        rw [hlen]; exact Nat.lt_succ_of_lt (hCopy p h).2.1, ?_⟩
      rw [hold _ _ (hCopy p h).1, hold _ _ (hCopy p h).2.1]
      exact (hCopy p h).2.2
    · rcases List.mem_cons.mp h with rfl | h2
      · refine ⟨?_, ?_, ?_⟩
        · show lc.row < (HashChip.hash b lc rc).1.rows.length
          rw [hlen]
          exact Nat.lt_succ_of_lt hl.1
        · show b.rows.length < (HashChip.hash b lc rc).1.rows.length
          rw [hlen]
          omega
        · show (HashChip.hash b lc rc).1.assign lc.row lc.col =
            (HashChip.hash b lc rc).1.assign b.rows.length 0
          rw [hold _ _ hl.1, hnew, colVal_zero, hl.2]
      · rcases List.mem_singleton.mp h2 with rfl
        refine ⟨?_, ?_, ?_⟩
        · show rc.row < (HashChip.hash b lc rc).1.rows.length
          rw [hlen]
          exact Nat.lt_succ_of_lt hr.1
        · show b.rows.length < (HashChip.hash b lc rc).1.rows.length
          rw [hlen]
          omega
        · show (HashChip.hash b lc rc).1.assign rc.row rc.col =
            (HashChip.hash b lc rc).1.assign b.rows.length 1
          rw [hold _ _ hr.1, hnew, colVal_one, hr.2]
  · intro p hp
    refine ⟨by rw [hlen]; exact Nat.lt_succ_of_lt (hbind p hp).1, ?_⟩
    rw [hold _ _ (hbind p hp).1]
    exact (hbind p hp).2
  · refine ⟨?_, ?_⟩
    · show b.rows.length < (HashChip.hash b lc rc).1.rows.length
      rw [hlen]
      omega
    · show (HashChip.hash b lc rc).1.assign b.rows.length 2 = lc.val * rc.val
      rw [hnew, colVal_two]

theorem ok_extend_rows {F : Type} [Field F] {b : Builder F} {inst : ℕ → F}
    (hg : b.GatesOk) (hbind : b.BindsOk inst) (l : List (F × F × F)) :
    Builder.GatesOk { b with rows := b.rows ++ l } ∧
    Builder.BindsOk { b with rows := b.rows ++ l } inst ∧
    (∀ c : ACell F, b.CellOk c → Builder.CellOk { b with rows := b.rows ++ l } c) := by
  obtain ⟨hHash, hBool, hSwap, hCopy⟩ := hg
  have hlen : ({ b with rows := b.rows ++ l } : Builder F).rows.length =
      b.rows.length + l.length := by simp
  have hold : ∀ (r : ℕ) (c : Fin 3), r < b.rows.length →
      ({ b with rows := b.rows ++ l } : Builder F).assign r c = b.assign r c := by
    intro r c hrc
    exact assignRows_append_lt _ _ _ _ hrc
  refine ⟨⟨?_, ?_, ?_, ?_⟩, ?_, ?_⟩
  · intro r hrr
    have h1 := (hHash r hrr).1
    refine ⟨by rw [hlen]; omega, ?_⟩
    rw [hold _ _ h1, hold _ _ h1, hold _ _ h1]
    exact (hHash r hrr).2
  · intro r hrr
    have h1 := (hBool r hrr).1
    refine ⟨by rw [hlen]; omega, ?_⟩
    rw [hold _ _ h1]
    exact (hBool r hrr).2
  · intro r hrr
    have h1 := (hSwap r hrr).1
    refine ⟨by rw [hlen]; omega, ?_, ?_⟩
    · rw [hold _ _ (by omega), hold _ _ (by omega), hold _ _ (by omega),
        hold _ _ (by omega)]
      exact (hSwap r hrr).2.1
    · rw [hold _ _ (by omega), hold _ _ (by omega), hold _ _ (by omega),
        hold _ _ (by omega)]
      exact (hSwap r hrr).2.2
  · intro p hp
    have h1 := (hCopy p hp).1
    have h2 := (hCopy p hp).2.1
    refine ⟨by rw [hlen]; omega, by rw [hlen]; omega, ?_⟩
    rw [hold _ _ h1, hold _ _ h2]
    exact (hCopy p hp).2.2
  · intro p hp
    have h1 := (hbind p hp).1
    refine ⟨by rw [hlen]; omega, ?_⟩
    rw [hold _ _ h1]
    exact (hbind p hp).2
  · intro c hc
    have h1 := hc.1
    refine ⟨by rw [hlen]; omega, ?_⟩
    rw [hold _ _ h1]
    exact hc.2

theorem compute_hash_step {F : Type} [Field F] {b : Builder F} {inst : ℕ → F}
    (x y : F) (hg : b.GatesOk) (hbind : b.BindsOk inst) :
    (TornadoChip.compute_hash b x y).1.GatesOk ∧
    (TornadoChip.compute_hash b x y).1.BindsOk inst ∧
    (TornadoChip.compute_hash b x y).1.CellOk (TornadoChip.compute_hash b x y).2 ∧
    (TornadoChip.compute_hash b x y).2 = ⟨b.rows.length + 1, 2, x * y⟩ ∧
    (TornadoChip.compute_hash b x y).1.rows.length = b.rows.length + 2 ∧
    (TornadoChip.compute_hash b x y).1.binds = b.binds ∧
    (∀ c : ACell F, b.CellOk c → (TornadoChip.compute_hash b x y).1.CellOk c) := by
  obtain ⟨hg1, hbind1, hkeep1⟩ := ok_extend_rows hg hbind [(x, y, 0)]
  have hlen1 : ({ b with rows := b.rows ++ [(x, y, 0)] } : Builder F).rows.length =
      b.rows.length + 1 := by simp
  have hcl : ({ b with rows := b.rows ++ [(x, y, 0)] } : Builder F).CellOk
      ⟨b.rows.length, 0, x⟩ := by
    refine ⟨?_, ?_⟩
    · show b.rows.length < ({ b with rows := b.rows ++ [(x, y, 0)] } : Builder F).rows.length
      rw [hlen1]
      omega
    · show assignRows (b.rows ++ [(x, y, 0)]) b.rows.length 0 = x
      rw [assignRows_append_fst, colVal_zero]
  have hcr : ({ b with rows := b.rows ++ [(x, y, 0)] } : Builder F).CellOk
      ⟨b.rows.length, 1, y⟩ := by
    refine ⟨?_, ?_⟩
    · show b.rows.length < ({ b with rows := b.rows ++ [(x, y, 0)] } : Builder F).rows.length
      rw [hlen1]
      omega
    · show assignRows (b.rows ++ [(x, y, 0)]) b.rows.length 1 = y
      rw [assignRows_append_fst, colVal_one]
  have hh := hash_step (b := { b with rows := b.rows ++ [(x, y, 0)] })
    ⟨b.rows.length, 0, x⟩ ⟨b.rows.length, 1, y⟩ hg1 hbind1 hcl hcr
  refine ⟨hh.1, hh.2.1, hh.2.2.1, ?_, ?_, hh.2.2.2.2.2.1, ?_⟩
  · have h4 := hh.2.2.2.1
    rw [hlen1] at h4
    exact h4
  · have h5 := hh.2.2.2.2.1
    rw [hlen1] at h5
    exact h5
  · intro c hc
    exact hh.2.2.2.2.2.2 c (hkeep1 c hc)

theorem layer_step {F : Type} [Field F] [DecidableEq F] {b : Builder F} {inst : ℕ → F}
    (node : ACell F) (e i : F) (hbit : i = 0 ∨ i = 1)
    (hg : b.GatesOk) (hbind : b.BindsOk inst) (hnode : b.CellOk node) :
    (MerkleChip.merkle_prove_layer b node e i).1.GatesOk ∧
    (MerkleChip.merkle_prove_layer b node e i).1.BindsOk inst ∧
    (MerkleChip.merkle_prove_layer b node e i).1.CellOk
      (MerkleChip.merkle_prove_layer b node e i).2 ∧
    (MerkleChip.merkle_prove_layer b node e i).2 =
      ⟨b.rows.length + 2, 2, if i = 0 then node.val * e else e * node.val⟩ ∧
    (MerkleChip.merkle_prove_layer b node e i).1.rows.length = b.rows.length + 3 ∧
    (MerkleChip.merkle_prove_layer b node e i).1.binds = b.binds ∧
    (∀ c : ACell F, b.CellOk c → (MerkleChip.merkle_prove_layer b node e i).1.CellOk c) := by
  obtain ⟨hHash, hBool, hSwap, hCopy⟩ := hg
  set LR : F × F := (if i = 0 then (node.val, e) else (e, node.val)) with hLR
  set B1 : Builder F :=
    ⟨b.rows ++ [(node.val, e, i), (LR.1, LR.2, 0)],
     b.hashRows, b.swapRows ++ [b.rows.length], b.boolRows ++ [b.rows.length],
     b.copies ++ [((node.row, node.col), (b.rows.length, 0))],
     b.binds⟩ with hB1
  have hunfold : MerkleChip.merkle_prove_layer b node e i =
      HashChip.hash B1 ⟨b.rows.length + 1, 0, LR.1⟩ ⟨b.rows.length + 1, 1, LR.2⟩ := rfl
  have hlenB1 : B1.rows.length = b.rows.length + 2 := by
    rw [hB1]
    simp
  have holdB1 : ∀ (r : ℕ) (c : Fin 3), r < b.rows.length →
      B1.assign r c = b.assign r c := by
    intro r c hrc
    rw [hB1]
    exact assignRows_append_lt _ _ _ _ hrc
  have hrow0 : ∀ c : Fin 3, B1.assign b.rows.length c = colVal (node.val, e, i) c := by
    intro c
    rw [hB1]
    exact assignRows_append_fst _ _ _ _
  have hrow1 : ∀ c : Fin 3,
      B1.assign (b.rows.length + 1) c = colVal (LR.1, LR.2, 0) c := by
    intro c
    rw [hB1]
    exact assignRows_append_snd _ _ _ _ _
  have hgB1 : B1.GatesOk := by
    refine ⟨?_, ?_, ?_, ?_⟩
    · intro r hrr
      rw [hB1] at hrr
      have h1 := (hHash r hrr).1
      refine ⟨by rw [hlenB1]; omega, ?_⟩
      rw [holdB1 _ _ h1, holdB1 _ _ h1, holdB1 _ _ h1]
      exact (hHash r hrr).2
    · intro r hrr
      rw [hB1] at hrr
      rcases List.mem_append.mp hrr with h | h
      · have h1 := (hBool r h).1
        refine ⟨by rw [hlenB1]; omega, ?_⟩
        rw [holdB1 _ _ h1]
        exact (hBool r h).2
      · rcases List.mem_singleton.mp h with rfl
        refine ⟨by rw [hlenB1]; omega, ?_⟩
        rw [hrow0, colVal_two]
        exact hbit
    · intro r hrr
      rw [hB1] at hrr
      rcases List.mem_append.mp hrr with h | h
      · have h1 := (hSwap r h).1
        refine ⟨by rw [hlenB1]; omega, ?_, ?_⟩
        · rw [holdB1 _ _ (by omega), holdB1 _ _ (by omega), holdB1 _ _ (by omega),
            holdB1 _ _ (by omega)]
          exact (hSwap r h).2.1
        · rw [holdB1 _ _ (by omega), holdB1 _ _ (by omega), holdB1 _ _ (by omega),
            holdB1 _ _ (by omega)]
          exact (hSwap r h).2.2
      · rcases List.mem_singleton.mp h with rfl
        refine ⟨by rw [hlenB1]; omega, ?_, ?_⟩
        · rw [hrow1, hrow0, hrow0, hrow0, colVal_zero, colVal_one, colVal_two,
            colVal_zero]
          rcases hbit with rfl | rfl
          · rw [hLR]
            simp
          · rw [hLR]
            by_cases h10 : (1 : F) = 0
            · simp [h10]
            · simp [h10]
        · rw [hrow1, hrow0, hrow0, hrow0, colVal_one, colVal_one, colVal_two,
            colVal_zero]
          rcases hbit with rfl | rfl
          · rw [hLR]
            simp
          · rw [hLR]
            by_cases h10 : (1 : F) = 0
            · simp [h10]
            · simp [h10]
    · intro p hp
      rw [hB1] at hp
      rcases List.mem_append.mp hp with h | h
      · have h1 := (hCopy p h).1
        have h2 := (hCopy p h).2.1
        refine ⟨by rw [hlenB1]; omega, by rw [hlenB1]; omega, ?_⟩
        rw [holdB1 _ _ h1, holdB1 _ _ h2]
        exact (hCopy p h).2.2
      · rcases List.mem_singleton.mp h with rfl
        have h1 := hnode.1
        refine ⟨?_, ?_, ?_⟩
        · show node.row < B1.rows.length
          rw [hlenB1]
          omega
        · show b.rows.length < B1.rows.length
          rw [hlenB1]
          omega
        · show B1.assign node.row node.col = B1.assign b.rows.length 0
          rw [holdB1 _ _ h1, hrow0, colVal_zero, hnode.2]
  have hbindB1 : B1.BindsOk inst := by
    intro p hp
    rw [hB1] at hp
    have h1 := (hbind p hp).1
    refine ⟨by rw [hlenB1]; omega, ?_⟩
    rw [holdB1 _ _ h1]
    exact (hbind p hp).2
  have hclB1 : B1.CellOk ⟨b.rows.length + 1, 0, LR.1⟩ := by
    refine ⟨?_, ?_⟩
    · show b.rows.length + 1 < B1.rows.length
      rw [hlenB1]
      omega
    · show B1.assign (b.rows.length + 1) 0 = LR.1
      rw [hrow1, colVal_zero]
  have hcrB1 : B1.CellOk ⟨b.rows.length + 1, 1, LR.2⟩ := by
    refine ⟨?_, ?_⟩
    · show b.rows.length + 1 < B1.rows.length
      rw [hlenB1]
      omega
    · show B1.assign (b.rows.length + 1) 1 = LR.2
      rw [hrow1, colVal_one]
  have hkeepB1 : ∀ c : ACell F, b.CellOk c → B1.CellOk c := by
    intro c hc
    have h1 := hc.1
    refine ⟨by rw [hlenB1]; omega, ?_⟩
    rw [holdB1 _ _ h1]
    exact hc.2
  have hh := hash_step (b := B1) ⟨b.rows.length + 1, 0, LR.1⟩
    ⟨b.rows.length + 1, 1, LR.2⟩ hgB1 hbindB1 hclB1 hcrB1
  rw [hunfold]
  have hprod : LR.1 * LR.2 = if i = 0 then node.val * e else e * node.val := by
    by_cases hi : i = 0
    · rw [hLR]
      simp [hi]
    · rw [hLR]
      simp [hi]
  refine ⟨hh.1, hh.2.1, hh.2.2.1, ?_, ?_, hh.2.2.2.2.2.1, ?_⟩
  · have h4 := hh.2.2.2.1
    rw [hlenB1, hprod] at h4
    exact h4
  · have h5 := hh.2.2.2.2.1
    rw [hlenB1] at h5
    omega
  · intro c hc
    exact hh.2.2.2.2.2.2 c (hkeepB1 c hc)

theorem computeRootGo_cons {F : Type} [Field F] [DecidableEq F] (x e i : F)
    (es is : List F) :
    computeRootGo x (e :: es) (i :: is) =
      computeRootGo (if i = 0 then x * e else e * x) es is := by
  by_cases hi : i = 0 <;> simp [computeRootGo, hi, hash_values]

theorem gatesOk_constrain {F : Type} [Field F] {b : Builder F} (hg : b.GatesOk)
    (c : CellRef) (k : ℕ) : (b.constrain_instance c k).GatesOk := hg

theorem cellOk_constrain {F : Type} [Field F] {b : Builder F} {a : ACell F}
    (ha : b.CellOk a) (c : CellRef) (k : ℕ) : (b.constrain_instance c k).CellOk a := ha

theorem bindsOk_constrain {F : Type} [Field F] {b : Builder F} {inst : ℕ → F}
    (hb : b.BindsOk inst) {c : CellRef} {k : ℕ}
    (hc : c.1 < b.rows.length ∧ b.assign c.1 c.2 = inst k) :
    (b.constrain_instance c k).BindsOk inst := by
  intro p hp
  simp only [Builder.constrain_instance] at hp
  rcases List.mem_append.mp hp with h | h
  · exact hb p h
  · rcases List.mem_singleton.mp h with rfl
    exact hc

theorem prove_tree_root_fold {F : Type} [Field F] [DecidableEq F] (elems : List F) :
    ∀ (inds : List F) (b : Builder F) (leaf : ACell F) (inst : ℕ → F),
    b.GatesOk → b.BindsOk inst → b.CellOk leaf →
    (∀ i ∈ inds, i = 0 ∨ i = 1) → elems.length ≤ inds.length →
    ∃ bd : Builder F × ACell F,
      MerkleChip.prove_tree_root b leaf elems inds = some bd ∧
      bd.1.GatesOk ∧ bd.1.BindsOk inst ∧ bd.1.CellOk bd.2 ∧
      bd.2.val = computeRootGo leaf.val elems inds ∧
      bd.1.binds = b.binds ∧
      bd.1.rows.length = b.rows.length + 3 * elems.length ∧
      (∀ c : ACell F, b.CellOk c → bd.1.CellOk c) := by
  induction elems with
  | nil =>
    intro inds b leaf inst hg hbind hleaf hbits hlen
    exact ⟨(b, leaf), rfl, hg, hbind, hleaf, rfl, rfl, by simp, fun c hc => hc⟩
  | cons e es ih =>
    intro inds b leaf inst hg hbind hleaf hbits hlen
    cases inds with
    | nil => simp at hlen
    | cons i is =>
      have hbit : i = 0 ∨ i = 1 := hbits i (List.mem_cons_self i is)
      obtain ⟨lg, lbind, lcell, lout, llen, lbinds, lkeep⟩ :=
        layer_step leaf e i hbit hg hbind hleaf
      have hbits2 : ∀ j ∈ is, j = 0 ∨ j = 1 := fun j hj =>
        hbits j (List.mem_cons_of_mem _ hj)
      have hlen2 : es.length ≤ is.length := by
        simp at hlen
        omega
      obtain ⟨bd, hrun, hg2, hbind2, hcell2, hval2, hbinds2, hlen3, hkeep2⟩ :=
        ih is (MerkleChip.merkle_prove_layer b leaf e i).1
          (MerkleChip.merkle_prove_layer b leaf e i).2 inst lg lbind lcell hbits2 hlen2
      refine ⟨bd, hrun, hg2, hbind2, hcell2, ?_, ?_, ?_, ?_⟩
      · rw [hval2, computeRootGo_cons]
        congr 1
        rw [lout]
      · rw [hbinds2, lbinds]
      · rw [hlen3, llen]
        simp
        ring
      · intro c hc
        exact hkeep2 c (lkeep c hc)

theorem merkle_circuit_sat {F : Type} [Field F] [DecidableEq F]
    (leaf : F) (elems inds : List F)
    (hbits : ∀ i ∈ inds, i = 0 ∨ i = 1) (hlen : elems.length ≤ inds.length) :
    ∃ b : Builder F, MerkleCircuit.synthesize leaf elems inds = some b ∧
      ∀ inst : ℕ → F, (Satisfies b.shape b.assign inst ↔
        (inst 0 = leaf ∧ inst 1 = computeRootGo leaf elems inds)) := by
  set B1 : Builder F := ⟨[(leaf, 0, 0)], [], [], [], [], [((0, 0), 0)]⟩ with hB1
  have hg1 : B1.GatesOk := by
    refine ⟨?_, ?_, ?_, ?_⟩ <;> intro p hp <;> rw [hB1] at hp <;> simp at hp
  have hcell1 : B1.CellOk ⟨0, 0, leaf⟩ := by
    refine ⟨?_, ?_⟩
    · show (0 : ℕ) < B1.rows.length
      rw [hB1]
      simp
    · show B1.assign 0 0 = leaf
      rw [hB1]
      simp [Builder.assign, assignRows, List.getD, colVal]
  have hbind1 : B1.BindsOk (instOf leaf (computeRootGo leaf elems inds)) := by
    intro p hp
    rw [hB1] at hp
    rcases List.mem_singleton.mp hp with rfl
    refine ⟨?_, ?_⟩
    · show (0 : ℕ) < B1.rows.length
      rw [hB1]
      simp
    · show B1.assign 0 0 = instOf leaf (computeRootGo leaf elems inds) 0
      rw [hcell1.2]
      simp [instOf]
  obtain ⟨bd, hrun, hg2, _, hcell2, hval2, hbinds2, _, hkeep2⟩ :=
    prove_tree_root_fold elems inds B1 ⟨0, 0, leaf⟩
      (instOf leaf (computeRootGo leaf elems inds)) hg1 hbind1 hcell1 hbits hlen
  obtain ⟨b2, root⟩ := bd
  have hleafcell : b2.CellOk ⟨0, 0, leaf⟩ := hkeep2 _ hcell1
  have hbinds2' : b2.binds = [((0, 0), 0)] := by
    rw [hbinds2, hB1]
  refine ⟨b2.constrain_instance (root.row, root.col) 1, ?_, ?_⟩
  · show (match MerkleChip.prove_tree_root B1 ⟨0, 0, leaf⟩ elems inds with
      | none => none
      | some (b2, root) => some (b2.constrain_instance (root.row, root.col) 1)) =
      some (b2.constrain_instance (root.row, root.col) 1)
    rw [hrun]
  · intro inst
    constructor
    · intro hs
      have hmem0 : (((0, 0), 0) : CellRef × ℕ) ∈
          (b2.constrain_instance (root.row, root.col) 1).shape.binds := by
        show (((0, 0), 0) : CellRef × ℕ) ∈ b2.binds ++ [((root.row, root.col), 1)]
        rw [hbinds2']
        simp
      have hmem1 : ((((root.row, root.col) : CellRef), 1) : CellRef × ℕ) ∈
          (b2.constrain_instance (root.row, root.col) 1).shape.binds := by
        show ((((root.row, root.col) : CellRef), 1) : CellRef × ℕ) ∈
          b2.binds ++ [((root.row, root.col), 1)]
        simp
      have h0 := hs.bind_eq hmem0
      have h1 := hs.bind_eq hmem1
      constructor
      · rw [← h0]
        show b2.assign 0 0 = leaf
        exact hleafcell.2
      · rw [← h1]
        show b2.assign root.row root.col = computeRootGo leaf elems inds
        rw [hcell2.2]
        exact hval2
    · rintro ⟨h0, h1⟩
      have hgB : (b2.constrain_instance (root.row, root.col) 1).GatesOk :=
        gatesOk_constrain hg2 _ _
      have hbB : (b2.constrain_instance (root.row, root.col) 1).BindsOk inst := by
        refine bindsOk_constrain ?_ ⟨hcell2.1, ?_⟩
        · intro p hp
          rw [hbinds2'] at hp
          rcases List.mem_singleton.mp hp with rfl
          exact ⟨hleafcell.1, by rw [hleafcell.2, ← h0]⟩
        · rw [hcell2.2, hval2]
          show computeRootGo leaf elems inds = inst 1
          rw [h1]
      exact satisfies_of_ok hgB hbB

theorem tornadoGen_sat {F : Type} [Field F] [DecidableEq F] (x y z w : F)
    (elems inds : List F) (hbits : ∀ i ∈ inds, i = 0 ∨ i = 1)
    (hlen : elems.length ≤ inds.length) :
    ∃ b : Builder F, tornadoGen x y z w elems inds = some b ∧
      ∀ inst : ℕ → F, (Satisfies b.shape b.assign inst ↔
        (inst 0 = x * y ∧ inst 1 = computeRootGo (z * w) elems inds)) := by
  set I : ℕ → F := instOf (x * y) (computeRootGo (z * w) elems inds) with hI
  have gE : (Builder.empty F).GatesOk := by
    refine ⟨?_, ?_, ?_, ?_⟩ <;> intro p hp <;> simp [Builder.empty] at hp
  have bE : (Builder.empty F).BindsOk I := by
    intro p hp
    simp [Builder.empty] at hp
  obtain ⟨g1, bi1, c1, e1, l1, bb1, k1⟩ :=
    @compute_hash_step F _ (Builder.empty F) I x y gE bE
  set P1 := TornadoChip.compute_hash (Builder.empty F) x y with hP1
  have hval1 : P1.2.val = x * y := by
    rw [e1]
  have hbindN : P1.2.row < P1.1.rows.length ∧
      P1.1.assign P1.2.row P1.2.col = I 0 := by
    refine ⟨c1.1, ?_⟩
    rw [c1.2, hval1, hI]
    simp [instOf]
  set B1 := P1.1.constrain_instance (P1.2.row, P1.2.col) 0 with hB1
  have gB1 : B1.GatesOk := gatesOk_constrain g1 _ _
  have biB1 : B1.BindsOk I := bindsOk_constrain bi1 hbindN
  have cB1 : B1.CellOk P1.2 := cellOk_constrain c1 _ _
  obtain ⟨g2, bi2, c2, e2, l2, bb2, k2⟩ :=
    @compute_hash_step F _ B1 I z w gB1 biB1
  set P2 := TornadoChip.compute_hash B1 z w with hP2
  have hval2 : P2.2.val = z * w := by
    rw [e2]
  obtain ⟨bd, hrun, g3, bi3, c3, v3, bb3, l3, k3⟩ :=
    prove_tree_root_fold elems inds P2.1 P2.2 I g2 bi2 c2 hbits hlen
  obtain ⟨b3, root⟩ := bd
  have hnh3 : b3.CellOk P1.2 := k3 _ (k2 _ cB1)
  have hbinds3 : b3.binds = [((P1.2.row, P1.2.col), 0)] := by
    rw [bb3]
    show (P1.1.binds ++ [((P1.2.row, P1.2.col), 0)]) = _
    rw [bb1]
    rfl
  have hroot3 : root.val = computeRootGo (z * w) elems inds := by
    rw [v3, hval2]
  refine ⟨b3.constrain_instance (root.row, root.col) 1, ?_, ?_⟩
  · show (match MerkleChip.prove_tree_root P2.1 P2.2 elems inds with
      | none => none
      | some (b3, root) => some (b3.constrain_instance (root.row, root.col) 1)) =
      some (b3.constrain_instance (root.row, root.col) 1)
    rw [hrun]
  · intro inst
    constructor
    · intro hs
      have hmem0 : ((((P1.2.row, P1.2.col) : CellRef), 0) : CellRef × ℕ) ∈
          (b3.constrain_instance (root.row, root.col) 1).shape.binds := by
        show ((((P1.2.row, P1.2.col) : CellRef), 0) : CellRef × ℕ) ∈
          b3.binds ++ [((root.row, root.col), 1)]
        rw [hbinds3]
        simp
      have hmem1 : ((((root.row, root.col) : CellRef), 1) : CellRef × ℕ) ∈
          (b3.constrain_instance (root.row, root.col) 1).shape.binds := by
        show ((((root.row, root.col) : CellRef), 1) : CellRef × ℕ) ∈
          b3.binds ++ [((root.row, root.col), 1)]
        simp
      have h0 := hs.bind_eq hmem0
      have h1 := hs.bind_eq hmem1
      constructor
      · rw [← h0]
        show b3.assign P1.2.row P1.2.col = x * y
        rw [hnh3.2]
        exact hval1
      · rw [← h1]
        show b3.assign root.row root.col = computeRootGo (z * w) elems inds
        rw [c3.2]
        exact hroot3
    · rintro ⟨h0, h1⟩
      have hgB : (b3.constrain_instance (root.row, root.col) 1).GatesOk :=
        gatesOk_constrain g3 _ _
      have hbB : (b3.constrain_instance (root.row, root.col) 1).BindsOk inst := by
        refine bindsOk_constrain ?_ ⟨c3.1, ?_⟩
        · intro p hp
          rw [hbinds3] at hp
          rcases List.mem_singleton.mp hp with rfl
          refine ⟨hnh3.1, ?_⟩
          show b3.assign P1.2.row P1.2.col = inst 0
          rw [hnh3.2, hval1, h0]
        · show b3.assign root.row root.col = inst 1
          rw [c3.2, hroot3, h1]
      exact satisfies_of_ok hgB hbB

theorem compute_hash_struct {F : Type} [Field F] (b : Builder F) (x y : F) :
    (TornadoChip.compute_hash b x y).1.hashRows = b.hashRows ++ [b.rows.length + 1] ∧
    (TornadoChip.compute_hash b x y).1.swapRows = b.swapRows ∧
    (TornadoChip.compute_hash b x y).1.boolRows = b.boolRows ∧
    (TornadoChip.compute_hash b x y).1.copies =
      b.copies ++ [((b.rows.length, 0), (b.rows.length + 1, 0)),
                   ((b.rows.length, 1), (b.rows.length + 1, 1))] ∧
    (TornadoChip.compute_hash b x y).1.binds = b.binds ∧
    (TornadoChip.compute_hash b x y).1.rows.length = b.rows.length + 2 ∧
    (TornadoChip.compute_hash b x y).2.row = b.rows.length + 1 ∧
    (TornadoChip.compute_hash b x y).2.col = 2 := by
  refine ⟨?_, rfl, rfl, ?_, rfl, ?_, ?_, rfl⟩ <;>
    simp [TornadoChip.compute_hash, HashChip.hash]

theorem layer_struct {F : Type} [Field F] [DecidableEq F] (b : Builder F)
    (node : ACell F) (e i : F) :
    (MerkleChip.merkle_prove_layer b node e i).1.hashRows =
      b.hashRows ++ [b.rows.length + 2] ∧
    (MerkleChip.merkle_prove_layer b node e i).1.swapRows =
      b.swapRows ++ [b.rows.length] ∧
    (MerkleChip.merkle_prove_layer b node e i).1.boolRows =
      b.boolRows ++ [b.rows.length] ∧
    (MerkleChip.merkle_prove_layer b node e i).1.copies =
      b.copies ++ [((node.row, node.col), (b.rows.length, 0)),
        ((b.rows.length + 1, 0), (b.rows.length + 2, 0)),
        ((b.rows.length + 1, 1), (b.rows.length + 2, 1))] ∧
    (MerkleChip.merkle_prove_layer b node e i).1.binds = b.binds ∧
    (MerkleChip.merkle_prove_layer b node e i).1.rows.length = b.rows.length + 3 ∧
    (MerkleChip.merkle_prove_layer b node e i).2.row = b.rows.length + 2 ∧
    (MerkleChip.merkle_prove_layer b node e i).2.col = 2 := by
  refine ⟨?_, rfl, rfl, ?_, rfl, ?_, ?_, rfl⟩ <;>
    simp [MerkleChip.merkle_prove_layer, HashChip.hash]

theorem prove_tree_root_mono {F : Type} [Field F] [DecidableEq F] (elems : List F) :
    ∀ (inds : List F) (b : Builder F) (leaf : ACell F) (bd : Builder F × ACell F),
    MerkleChip.prove_tree_root b leaf elems inds = some bd →
    b.hashRows ⊆ bd.1.hashRows ∧ b.swapRows ⊆ bd.1.swapRows ∧
    b.boolRows ⊆ bd.1.boolRows ∧ b.copies ⊆ bd.1.copies ∧ b.binds ⊆ bd.1.binds := by
  induction elems with
  | nil =>
    intro inds b leaf bd h
    have h' := Option.some.inj h
    subst h'
    exact ⟨List.Subset.refl _, List.Subset.refl _, List.Subset.refl _,
      List.Subset.refl _, List.Subset.refl _⟩
  | cons e es ih =>
    intro inds b leaf bd h
    cases inds with
    | nil => simp [MerkleChip.prove_tree_root] at h
    | cons i is =>
      have h' : MerkleChip.prove_tree_root
          (MerkleChip.merkle_prove_layer b leaf e i).1
          (MerkleChip.merkle_prove_layer b leaf e i).2 es is = some bd := h
      obtain ⟨m1, m2, m3, m4, m5⟩ := ih is _ _ _ h'
      obtain ⟨s1, s2, s3, s4, s5, _, _, _⟩ := layer_struct b leaf e i
      refine ⟨?_, ?_, ?_, ?_, ?_⟩
      · intro a ha
        exact m1 (by rw [s1]; exact List.mem_append_left _ ha)
      · intro a ha
        exact m2 (by rw [s2]; exact List.mem_append_left _ ha)
      · intro a ha
        exact m3 (by rw [s3]; exact List.mem_append_left _ ha)
      · intro a ha
        exact m4 (by rw [s4]; exact List.mem_append_left _ ha)
      · intro a ha
        exact m5 (by rw [s5]; exact ha)

theorem prove_tree_root_sound {F : Type} [Field F] [DecidableEq F] (elems : List F) :
    ∀ (inds : List F) (b : Builder F) (leaf : ACell F) (bd : Builder F × ACell F),
    MerkleChip.prove_tree_root b leaf elems inds = some bd →
    ∀ sh : Shape, bd.1.hashRows ⊆ sh.hashRows → bd.1.swapRows ⊆ sh.swapRows →
      bd.1.boolRows ⊆ sh.boolRows → bd.1.copies ⊆ sh.copies →
    ∀ (A : ℕ → Fin 3 → F) (inst : ℕ → F), Satisfies sh A inst →
    ∃ es bs : List F, es.length = elems.length ∧ bs.length = elems.length ∧
      (∀ j ∈ bs, j = 0 ∨ j = 1) ∧
      computeRootGo (A leaf.row leaf.col) es bs = A bd.2.row bd.2.col := by
  induction elems with
  | nil =>
    intro inds b leaf bd h sh hsub1 hsub2 hsub3 hsub4 A inst hs
    have h' := Option.some.inj h
    subst h'
    exact ⟨[], [], rfl, rfl, by simp, rfl⟩
  | cons e es ih =>
    intro inds b leaf bd h sh hsub1 hsub2 hsub3 hsub4 A inst hs
    cases inds with
    | nil => simp [MerkleChip.prove_tree_root] at h
    | cons i is =>
      have h' : MerkleChip.prove_tree_root
          (MerkleChip.merkle_prove_layer b leaf e i).1
          (MerkleChip.merkle_prove_layer b leaf e i).2 es is = some bd := h
      obtain ⟨s1, s2, s3, s4, s5, s6, s7, s8⟩ := layer_struct b leaf e i
      obtain ⟨m1, m2, m3, m4, m5⟩ := prove_tree_root_mono es is _ _ _ h'
      have hswap : b.rows.length ∈ sh.swapRows := by
        refine hsub2 (m2 ?_)
        rw [s2]
        simp
      have hbool : b.rows.length ∈ sh.boolRows := by
        refine hsub3 (m3 ?_)
        rw [s3]
        simp
      have hhashm : b.rows.length + 2 ∈ sh.hashRows := by
        refine hsub1 (m1 ?_)
        rw [s1]
        simp
      have hcopyN : (((leaf.row, leaf.col), ((b.rows.length, 0) : CellRef)) :
          CellRef × CellRef) ∈ sh.copies := by
        refine hsub4 (m4 ?_)
        rw [s4]
        simp
      have hcopyL : ((((b.rows.length + 1, 0) : CellRef),
          ((b.rows.length + 2, 0) : CellRef)) : CellRef × CellRef) ∈ sh.copies := by
        refine hsub4 (m4 ?_)
        rw [s4]
        simp
      have hcopyR : ((((b.rows.length + 1, 1) : CellRef),
          ((b.rows.length + 2, 1) : CellRef)) : CellRef × CellRef) ∈ sh.copies := by
        refine hsub4 (m4 ?_)
        rw [s4]
        simp
      have hbitA := hs.bool_row hbool
      have hsw1 := hs.swap_row_left hswap
      have hsw2 := hs.swap_row_right hswap
      have hhashA := hs.hash_row hhashm
      have hcN := hs.copy_eq hcopyN
      have hcL := hs.copy_eq hcopyL
      have hcR := hs.copy_eq hcopyR
      obtain ⟨es', bs', hl1, hl2, hb', hroot'⟩ :=
        ih is _ _ _ h' sh hsub1 hsub2 hsub3 hsub4 A inst hs
      refine ⟨A b.rows.length 1 :: es', A b.rows.length 2 :: bs', by simp [hl1],
        by simp [hl2], ?_, ?_⟩
      · intro j hj
        rcases List.mem_cons.mp hj with rfl | hj2
        · exact hbitA
        · exact hb' j hj2
      · rw [computeRootGo_cons]
        have hstep : (if A b.rows.length 2 = 0 then
            A leaf.row leaf.col * A b.rows.length 1
            else A b.rows.length 1 * A leaf.row leaf.col) =
            A (MerkleChip.merkle_prove_layer b leaf e i).2.row
              (MerkleChip.merkle_prove_layer b leaf e i).2.col := by

          rw [s7, s8]
          have hA0 : A (b.rows.length + 2) 0 = A (b.rows.length + 1) 0 := hcL.symm
          have hA1 : A (b.rows.length + 2) 1 = A (b.rows.length + 1) 1 := hcR.symm
          rcases hbitA with hb0 | hb1
          · rw [if_pos hb0]
            rw [hhashA, hA0, hA1, hsw1, hsw2, hb0]
            rw [hcN]
            ring
          · have hne : A b.rows.length 2 ≠ 0 := by
              rw [hb1]
              exact one_ne_zero
            rw [if_neg hne]
            rw [hhashA, hA0, hA1, hsw1, hsw2, hb1]
            rw [hcN]
            ring
        rw [hstep]
        exact hroot'

theorem constrain_shape {F : Type} (b : Builder F) (c : CellRef) (k : ℕ) :
    (b.constrain_instance c k).shape =
      ⟨b.rows.length, b.hashRows, b.swapRows, b.boolRows, b.copies,
       b.binds ++ [(c, k)]⟩ := rfl

theorem shape_components {F : Type} {b b2 : Builder F} (h : b.shape = b2.shape) :
    b.rows.length = b2.rows.length ∧ b.hashRows = b2.hashRows ∧
    b.swapRows = b2.swapRows ∧ b.boolRows = b2.boolRows ∧
    b.copies = b2.copies ∧ b.binds = b2.binds :=
  ⟨congrArg Shape.nRows h, congrArg Shape.hashRows h, congrArg Shape.swapRows h,
   congrArg Shape.boolRows h, congrArg Shape.copies h, congrArg Shape.binds h⟩

theorem prove_tree_root_shape {F : Type} [Field F] [DecidableEq F] (elems : List F) :
    ∀ (elems2 inds inds2 : List F) (b b2 : Builder F) (leaf leaf2 : ACell F)
      (bd bd2 : Builder F × ACell F),
    MerkleChip.prove_tree_root b leaf elems inds = some bd →
    MerkleChip.prove_tree_root b2 leaf2 elems2 inds2 = some bd2 →
    elems2.length = elems.length →
    b.shape = b2.shape → leaf.row = leaf2.row → leaf.col = leaf2.col →
    bd.1.shape = bd2.1.shape ∧ bd.2.row = bd2.2.row ∧ bd.2.col = bd2.2.col := by
  induction elems with
  | nil =>
    intro elems2 inds inds2 b b2 leaf leaf2 bd bd2 h1 h2 hlen hsh hr hc
    cases elems2 with
    | nil =>
      have e1 := Option.some.inj h1
      have e2 := Option.some.inj h2
      subst e1
      subst e2
      exact ⟨hsh, hr, hc⟩
    | cons _ _ => simp at hlen
  | cons e es ih =>
    intro elems2 inds inds2 b b2 leaf leaf2 bd bd2 h1 h2 hlen hsh hr hc
    cases elems2 with
    | nil => simp at hlen
    | cons e2 es2 =>
      cases inds with
      | nil => simp [MerkleChip.prove_tree_root] at h1
      | cons i is =>
        cases inds2 with
        | nil => simp [MerkleChip.prove_tree_root] at h2
        | cons i2 is2 =>
          have h1' : MerkleChip.prove_tree_root
              (MerkleChip.merkle_prove_layer b leaf e i).1
              (MerkleChip.merkle_prove_layer b leaf e i).2 es is = some bd := h1
          have h2' : MerkleChip.prove_tree_root
              (MerkleChip.merkle_prove_layer b2 leaf2 e2 i2).1
              (MerkleChip.merkle_prove_layer b2 leaf2 e2 i2).2 es2 is2 = some bd2 := h2
          obtain ⟨hn, hh, hsw, hbo, hcp, hbi⟩ := shape_components hsh
          obtain ⟨s1, s2, s3, s4, s5, s6, s7, s8⟩ := layer_struct b leaf e i
          obtain ⟨t1, t2, t3, t4, t5, t6, t7, t8⟩ := layer_struct b2 leaf2 e2 i2
          have hshP : (MerkleChip.merkle_prove_layer b leaf e i).1.shape =
              (MerkleChip.merkle_prove_layer b2 leaf2 e2 i2).1.shape := by
            simp only [Builder.shape]
            rw [s1, s2, s3, s4, s5, s6, t1, t2, t3, t4, t5, t6,
              hn, hh, hsw, hbo, hcp, hbi, hr, hc]
          have hrP : (MerkleChip.merkle_prove_layer b leaf e i).2.row =
              (MerkleChip.merkle_prove_layer b2 leaf2 e2 i2).2.row := by
            rw [s7, t7, hn]
          have hcP : (MerkleChip.merkle_prove_layer b leaf e i).2.col =
              (MerkleChip.merkle_prove_layer b2 leaf2 e2 i2).2.col := by
            rw [s8, t8]
          have hlen2 : es2.length = es.length := by
            simp at hlen
            omega
          exact ih es2 is is2 _ _ _ _ _ _ h1' h2' hlen2 hshP hrP hcP

theorem tornadoGen_destruct {F : Type} [Field F] [DecidableEq F] {x y z w : F}
    {elems inds : List F} {b : Builder F}
    (h : tornadoGen x y z w elems inds = some b) :
    ∃ bd : Builder F × ACell F,
      MerkleChip.prove_tree_root
        (TornadoChip.compute_hash
          (((TornadoChip.compute_hash (Builder.empty F) x y).1).constrain_instance
            (((TornadoChip.compute_hash (Builder.empty F) x y).2).row,
             ((TornadoChip.compute_hash (Builder.empty F) x y).2).col) 0) z w).1
        (TornadoChip.compute_hash
          (((TornadoChip.compute_hash (Builder.empty F) x y).1).constrain_instance
            (((TornadoChip.compute_hash (Builder.empty F) x y).2).row,
             ((TornadoChip.compute_hash (Builder.empty F) x y).2).col) 0) z w).2
        elems inds = some bd ∧
      b = bd.1.constrain_instance (bd.2.row, bd.2.col) 1 := by
  unfold tornadoGen at h
  dsimp only [] at h
  split at h
  · exact absurd h (by simp)
  · rename_i b3 root heq
    exact ⟨(b3, root), heq, (Option.some.inj h).symm⟩

theorem tornadoGen_base_shape {F : Type} [Field F] (a b c d : F) :
    (TornadoChip.compute_hash
      (((TornadoChip.compute_hash (Builder.empty F) a b).1).constrain_instance
        (((TornadoChip.compute_hash (Builder.empty F) a b).2).row,
         ((TornadoChip.compute_hash (Builder.empty F) a b).2).col) 0) c d).1.shape =
      ⟨4, [1, 3], [], [],
       [((0, 0), (1, 0)), ((0, 1), (1, 1)), ((2, 0), (3, 0)), ((2, 1), (3, 1))],
       [((1, 2), 0)]⟩ ∧
    (TornadoChip.compute_hash
      (((TornadoChip.compute_hash (Builder.empty F) a b).1).constrain_instance
        (((TornadoChip.compute_hash (Builder.empty F) a b).2).row,
         ((TornadoChip.compute_hash (Builder.empty F) a b).2).col) 0) c d).2.row = 3 ∧
    (TornadoChip.compute_hash
      (((TornadoChip.compute_hash (Builder.empty F) a b).1).constrain_instance
        (((TornadoChip.compute_hash (Builder.empty F) a b).2).row,
         ((TornadoChip.compute_hash (Builder.empty F) a b).2).col) 0) c d).2.col = 2 :=
  ⟨rfl, rfl, rfl⟩

theorem tornadoGen_shape {F : Type} [Field F] [DecidableEq F]
    {x y z w x2 y2 z2 w2 : F} {elems inds elems2 inds2 : List F}
    {b b2 : Builder F} (h : tornadoGen x y z w elems inds = some b)
    (h2 : tornadoGen x2 y2 z2 w2 elems2 inds2 = some b2)
    (hlen : elems2.length = elems.length) : b.shape = b2.shape := by
  obtain ⟨bd, hrun, hb⟩ := tornadoGen_destruct h
  obtain ⟨bd2, hrun2, hb2⟩ := tornadoGen_destruct h2
  obtain ⟨u1, u2, u3⟩ := tornadoGen_base_shape (F := F) x y z w
  obtain ⟨v1, v2, v3⟩ := tornadoGen_base_shape (F := F) x2 y2 z2 w2
  obtain ⟨hsh, hrow, hcol⟩ := prove_tree_root_shape elems elems2 inds inds2
    _ _ _ _ bd bd2 hrun hrun2 hlen (u1.trans v1.symm) (u2.trans v2.symm)
    (u3.trans v3.symm)
  rw [hb, hb2, constrain_shape, constrain_shape]
  obtain ⟨cn, ch, cs, cb, cc, cbi⟩ := shape_components hsh
  rw [cn, ch, cs, cb, cc, cbi, hrow, hcol]

/-- TornadoCircuit::synthesize is tornadoGen with hash inputs
(nullifier, nullifier) and (nullifier, secret). -/
theorem synthesize_eq_gen {F : Type} [Field F] [DecidableEq F]
    (nullifier secret : F) (path_elements path_indices : List F) :
    TornadoCircuit.synthesize nullifier secret path_elements path_indices =
      tornadoGen nullifier nullifier nullifier secret path_elements path_indices := rfl

theorem tornadoGen_sound {F : Type} [Field F] [DecidableEq F]
    {x y z w : F} {elems inds : List F} {b : Builder F}
    (h : tornadoGen x y z w elems inds = some b)
    (A : ℕ → Fin 3 → F) (inst : ℕ → F) (hs : Satisfies b.shape A inst) :
    ∃ es bs : List F, es.length = elems.length ∧ bs.length = elems.length ∧
      (∀ j ∈ bs, j = 0 ∨ j = 1) ∧ inst 0 = A 1 0 * A 1 1 ∧
      computeRootGo (A 3 0 * A 3 1) es bs = inst 1 := by
  obtain ⟨bd, hrun, hb⟩ := tornadoGen_destruct h
  subst hb
  obtain ⟨u1, u2, u3⟩ := tornadoGen_base_shape (F := F) x y z w
  set base := TornadoChip.compute_hash
    (((TornadoChip.compute_hash (Builder.empty F) x y).1).constrain_instance
      (((TornadoChip.compute_hash (Builder.empty F) x y).2).row,
       ((TornadoChip.compute_hash (Builder.empty F) x y).2).col) 0) z w with hbase
  have hH : base.1.hashRows = [1, 3] := congrArg Shape.hashRows u1
  have hB : base.1.binds = [((1, 2), 0)] := congrArg Shape.binds u1
  obtain ⟨m1, _, _, _, m5⟩ := prove_tree_root_mono elems inds _ _ _ hrun
  have h1mem : (1 : ℕ) ∈ bd.1.hashRows := by
    refine m1 ?_
    rw [hH]
    simp
  have h3mem : (3 : ℕ) ∈ bd.1.hashRows := by
    refine m1 ?_
    rw [hH]
    simp
  have hbind0 : ((((1, 2) : CellRef), 0) : CellRef × ℕ) ∈
      (bd.1.constrain_instance (bd.2.row, bd.2.col) 1).shape.binds := by
    show ((((1, 2) : CellRef), 0) : CellRef × ℕ) ∈
      bd.1.binds ++ [((bd.2.row, bd.2.col), 1)]
    refine List.mem_append_left _ (m5 ?_)
    rw [hB]
    simp
  have hbind1 : ((((bd.2.row, bd.2.col) : CellRef), 1) : CellRef × ℕ) ∈
      (bd.1.constrain_instance (bd.2.row, bd.2.col) 1).shape.binds := by
    show ((((bd.2.row, bd.2.col) : CellRef), 1) : CellRef × ℕ) ∈
      bd.1.binds ++ [((bd.2.row, bd.2.col), 1)]
    simp
  have hx : A 1 2 = A 1 0 * A 1 1 := hs.hash_row h1mem
  have hz : A 3 2 = A 3 0 * A 3 1 := hs.hash_row h3mem
  have hi0 : A 1 2 = inst 0 := hs.bind_eq hbind0
  have hi1 : A bd.2.row bd.2.col = inst 1 := hs.bind_eq hbind1
  obtain ⟨es, bs, hl1, hl2, hbs, hroot⟩ := prove_tree_root_sound elems inds
    base.1 base.2 bd hrun
    (bd.1.constrain_instance (bd.2.row, bd.2.col) 1).shape
    (fun a ha => ha) (fun a ha => ha) (fun a ha => ha) (fun a ha => ha) A inst hs
  refine ⟨es, bs, hl1, hl2, hbs, by rw [← hi0, hx], ?_⟩
  rw [u2, u3] at hroot
  rw [← hz, hroot, hi1]

/-- Claim C2: HashChip::hash, given two already-assigned input cells,
allocates one new row, re-asserts the two input values into advice columns
0 and 1 of that row via copy constraints, assigns advice column 2 of that
row to the product of the two input values, enables the hash selector on
that row, and returns the output cell; the configured gate polynomial is
selector * (left*right - output), which is zero on a selector-active row
(selector value 1) exactly when the output cell equals the product of the
two input cells, and vanishes trivially where the selector is off. -/
theorem hash_gate_spec {F : Type} [Field F] (b : Builder F)
    (left_cell right_cell : ACell F) :
    (HashChip.hash b left_cell right_cell).1.rows =
      b.rows ++ [(left_cell.val, right_cell.val, left_cell.val * right_cell.val)] ∧
    (HashChip.hash b left_cell right_cell).1.hashRows =
      b.hashRows ++ [b.rows.length] ∧
    (HashChip.hash b left_cell right_cell).1.swapRows = b.swapRows ∧
    (HashChip.hash b left_cell right_cell).1.boolRows = b.boolRows ∧
    (HashChip.hash b left_cell right_cell).1.copies = b.copies ++
      [((left_cell.row, left_cell.col), (b.rows.length, 0)),
       ((right_cell.row, right_cell.col), (b.rows.length, 1))] ∧
    (HashChip.hash b left_cell right_cell).1.binds = b.binds ∧
    (HashChip.hash b left_cell right_cell).2 =
      ⟨b.rows.length, 2, left_cell.val * right_cell.val⟩ ∧
    (∀ a c out : F, hashGatePoly 1 a c out = 0 ↔ out = a * c) ∧
    (∀ a c out : F, hashGatePoly 0 a c out = 0) :=
  ⟨rfl, rfl, rfl, rfl, rfl, rfl, rfl,
   fun a c out => hashGatePoly_sel_one a c out,
   fun a c out => hashGatePoly_sel_zero a c out⟩

/-- Claim C3: MerkleChip::merkle_prove_layer allocates a two-row region
with row 0 holding (node, sibling, swap bit) and row 1 holding the pair
computed off-circuit as (node, sibling) if the bit is 0 and
(sibling, node) otherwise (the layer then appends the hash row for that
pair); the swap selector is enabled on row 0, and the two configured swap
identities, with the selector active, force (left', right') =
(left, right) when the bit is 0 and (left', right') = (right, left) when
the bit is 1. -/
theorem swap_gate_spec {F : Type} [Field F] [DecidableEq F] (b : Builder F)
    (node_cell : ACell F) (neighbor swap_bit : F) :
    (MerkleChip.merkle_prove_layer b node_cell neighbor swap_bit).1.rows =
      b.rows ++ [(node_cell.val, neighbor, swap_bit),
        ((if swap_bit = 0 then (node_cell.val, neighbor)
          else (neighbor, node_cell.val)).1,
         (if swap_bit = 0 then (node_cell.val, neighbor)
          else (neighbor, node_cell.val)).2, 0),
        ((if swap_bit = 0 then (node_cell.val, neighbor)
          else (neighbor, node_cell.val)).1,
         (if swap_bit = 0 then (node_cell.val, neighbor)
          else (neighbor, node_cell.val)).2,
         (if swap_bit = 0 then (node_cell.val, neighbor)
          else (neighbor, node_cell.val)).1 *
         (if swap_bit = 0 then (node_cell.val, neighbor)
          else (neighbor, node_cell.val)).2)] ∧
    (MerkleChip.merkle_prove_layer b node_cell neighbor swap_bit).1.swapRows =
      b.swapRows ++ [b.rows.length] ∧
    (∀ l r l' r' : F,
      (swapGatePoly1 1 l r 0 l' = 0 ∧ swapGatePoly2 1 l r 0 r' = 0) ↔
      (l' = l ∧ r' = r)) ∧
    (∀ l r l' r' : F,
      (swapGatePoly1 1 l r 1 l' = 0 ∧ swapGatePoly2 1 l r 1 r' = 0) ↔
      (l' = r ∧ r' = l)) := by
  refine ⟨?_, rfl, ?_, ?_⟩
  · simp [MerkleChip.merkle_prove_layer, HashChip.hash]
  · intro l r l' r'
    rw [swapGatePoly1_sel_one, swapGatePoly2_sel_one]
    have e1 : (r - l) * 0 + l = l := by ring
    have e2 : (l - r) * 0 + r = r := by ring
    rw [e1, e2]
  · intro l r l' r'
    rw [swapGatePoly1_sel_one, swapGatePoly2_sel_one]
    have e1 : (r - l) * 1 + l = r := by ring
    have e2 : (l - r) * 1 + r = l := by ring
    rw [e1, e2]

/-- Claim C4: the boolean gate polynomial selector * bit * (1 - bit), with
the selector active, vanishes exactly when the swap-bit cell holds 0 or 1;
merkle_prove_layer enables both the boolean selector and the swap selector
on row 0 of the Merkle-step region, so any assignment (of any circuit
whose shape contains this region's selectors) that puts a value outside
{0, 1} in the swap-bit cell violates a constraint and is rejected,
whatever the other assigned values are. -/
theorem swap_bit_boolean_enforced {F : Type} [Field F] [DecidableEq F]
    (b : Builder F) (node_cell : ACell F) (neighbor swap_bit : F)
    (A : ℕ → Fin 3 → F) (inst : ℕ → F) (sh : Shape)
    (hsub : (MerkleChip.merkle_prove_layer b node_cell neighbor swap_bit).1.boolRows
      ⊆ sh.boolRows)
    (hb0 : A b.rows.length 2 ≠ 0) (hb1 : A b.rows.length 2 ≠ 1) :
    (∀ bit : F, boolGatePoly 1 bit = 0 ↔ bit = 0 ∨ bit = 1) ∧
    b.rows.length ∈
      (MerkleChip.merkle_prove_layer b node_cell neighbor swap_bit).1.boolRows ∧
    b.rows.length ∈
      (MerkleChip.merkle_prove_layer b node_cell neighbor swap_bit).1.swapRows ∧
    ¬ Satisfies sh A inst := by
  obtain ⟨_, s2, s3, _, _, _, _, _⟩ := layer_struct b node_cell neighbor swap_bit
  have hbmem : b.rows.length ∈
      (MerkleChip.merkle_prove_layer b node_cell neighbor swap_bit).1.boolRows := by
    rw [s3]
    simp
  have hsmem : b.rows.length ∈
      (MerkleChip.merkle_prove_layer b node_cell neighbor swap_bit).1.swapRows := by
    rw [s2]
    simp
  refine ⟨fun bit => boolGatePoly_sel_one bit, hbmem, hsmem, ?_⟩
  intro hs
  rcases hs.bool_row (hsub hbmem) with h | h
  · exact hb0 h
  · exact hb1 h

/-- Witness for C4 at a concrete input: the two-row region built from the
empty builder with swap-bit witness 2 and the all-2 assignment violates
the boolean gate. -/
theorem swap_bit_boolean_enforced_witness :
    (∀ bit : ℚ, boolGatePoly 1 bit = 0 ↔ bit = 0 ∨ bit = 1) ∧
    (0 : ℕ) ∈ (MerkleChip.merkle_prove_layer (Builder.empty ℚ)
      ⟨0, 0, 3⟩ 7 2).1.boolRows ∧
    (0 : ℕ) ∈ (MerkleChip.merkle_prove_layer (Builder.empty ℚ)
      ⟨0, 0, 3⟩ 7 2).1.swapRows ∧
    ¬ Satisfies (MerkleChip.merkle_prove_layer (Builder.empty ℚ)
        ⟨0, 0, 3⟩ 7 2).1.shape (fun _ _ => (2 : ℚ)) (fun _ => (0 : ℚ)) :=
  swap_bit_boolean_enforced (Builder.empty ℚ) ⟨0, 0, 3⟩ 7 2 (fun _ _ => (2 : ℚ))
    (fun _ => (0 : ℚ)) (MerkleChip.merkle_prove_layer (Builder.empty ℚ)
      ⟨0, 0, 3⟩ 7 2).1.shape (fun a ha => ha) (by norm_num) (by norm_num)

/-- Claim C1: completeness of the Mixer circuit — for every (nullifier,
secret), and equal-length path sequences whose bits all lie in {0, 1},
with nullifier_hash = nullifier * nullifier and root the fold of the leaf
nullifier * secret through the reference combine rule, synthesizing
TornadoCircuit with that witness yields a grid satisfying every gate,
every copy constraint, and both public-input bindings for the public
input (nullifier_hash, root). -/
theorem tornado_completeness {F : Type} [Field F] [DecidableEq F]
    (nullifier secret : F) (path_elements path_indices : List F)
    (hlen : path_elements.length = path_indices.length)
    (hbits : ∀ i ∈ path_indices, i = 0 ∨ i = 1) (root : F)
    (hroot : compute_root (nullifier * secret) path_elements path_indices =
      some root) :
    ∃ b : Builder F,
      TornadoCircuit.synthesize nullifier secret path_elements path_indices =
        some b ∧
      Satisfies b.shape b.assign (instOf (nullifier * nullifier) root) := by
  obtain ⟨b, hsyn, hiff⟩ := tornadoGen_sat nullifier nullifier nullifier secret
    path_elements path_indices hbits (le_of_eq hlen)
  refine ⟨b, by rw [synthesize_eq_gen]; exact hsyn, ?_⟩
  refine (hiff _).mpr ⟨by simp [instOf], ?_⟩
  rw [compute_root, if_pos hlen] at hroot
  have hr := Option.some.inj hroot
  simp [instOf, ← hr]

/-- Witness for C1 at the spec's concrete scenario: nullifier 0x456,
secret 0xabc, path [2, 5, 7, 14, 23] with bits [0, 0, 1, 1, 0]. -/
theorem tornado_completeness_witness :
    ∃ b : Builder ℚ,
      TornadoCircuit.synthesize (1110 : ℚ) 2748 [2, 5, 7, 14, 23]
        [0, 0, 1, 1, 0] = some b ∧
      Satisfies b.shape b.assign (instOf ((1110 : ℚ) * 1110) 68753311200) :=
  tornado_completeness 1110 2748 [2, 5, 7, 14, 23] [0, 0, 1, 1, 0] (by decide)
    (by norm_num) 68753311200
    (by norm_num [compute_root, computeRootGo, hash_values])

/-- Claim C5 (amended): the TornadoCircuit constraint system synthesized
for a path of length n is satisfiable for public input
(nullifier_hash, root) iff there are witness values x, y, z, w and a path
(siblings, boolean bits) of length n with nullifier_hash = x * y and root
the Merkle fold of z * w — the two inputs of each hash invocation are
independent advice cells: no copy constraint forces the two nullifier-hash
inputs to be equal to each other, or to the commitment inputs, so a
satisfying assignment need not use a single nullifier value. -/
theorem tornado_contract {F : Type} [Field F] [DecidableEq F]
    (nullifier secret : F) (path_elements path_indices : List F) (b : Builder F)
    (hb : TornadoCircuit.synthesize nullifier secret path_elements path_indices =
      some b) (inst : ℕ → F) :
    (∃ A : ℕ → Fin 3 → F, Satisfies b.shape A inst) ↔
    (∃ (x y z w : F) (es bs : List F), es.length = path_elements.length ∧
      bs.length = es.length ∧ (∀ j ∈ bs, j = 0 ∨ j = 1) ∧
      inst 0 = x * y ∧ compute_root (z * w) es bs = some (inst 1)) := by
  rw [synthesize_eq_gen] at hb
  constructor
  · rintro ⟨A, hs⟩
    obtain ⟨es, bs, hl1, hl2, hbs, h0, h1⟩ := tornadoGen_sound hb A inst hs
    refine ⟨A 1 0, A 1 1, A 3 0, A 3 1, es, bs, hl1, by omega, hbs, h0, ?_⟩
    rw [compute_root, if_pos (by omega), h1]
  · rintro ⟨x, y, z, w, es, bs, hl1, hl2, hbs, h0, h1⟩
    obtain ⟨bg, hbg, hiff⟩ := tornadoGen_sat x y z w es bs hbs
      (le_of_eq hl2.symm)
    have hshape : bg.shape = b.shape := tornadoGen_shape hbg hb (by omega)
    refine ⟨bg.assign, ?_⟩
    rw [← hshape]
    rw [compute_root, if_pos hl2.symm] at h1
    exact (hiff inst).mpr ⟨h0, (Option.some.inj h1).symm⟩

/-- Witness for C5 (amended) at a concrete input: the empty-path circuit
with nullifier 2 and secret 3, public input (6, 6). -/
theorem tornado_contract_witness :
    ∃ b : Builder ℚ, TornadoCircuit.synthesize (2 : ℚ) 3 [] [] = some b ∧
      ((∃ A : ℕ → Fin 3 → ℚ, Satisfies b.shape A (instOf 6 6)) ↔
       (∃ (x y z w : ℚ) (es bs : List ℚ), es.length = ([] : List ℚ).length ∧
         bs.length = es.length ∧ (∀ j ∈ bs, j = 0 ∨ j = 1) ∧
         instOf (6 : ℚ) 6 0 = x * y ∧
         compute_root (z * w) es bs = some (instOf (6 : ℚ) 6 1))) :=
  ⟨_, rfl, tornado_contract 2 3 [] [] _ rfl (instOf 6 6)⟩

/-- Claim C5 counterexample: the claim as stated fails.  With nullifier 1
and secret 5 and an empty path, the synthesized constraint system is
satisfiable for public input (-1, 5) — by an assignment whose two
nullifier-hash input cells hold the distinct values 1 and -1 — yet no
witness of the claimed form exists: -1 is not the self-hash
nullifier * nullifier of any field element of ℚ. -/
theorem tornado_contract_counterexample :
    ∃ b : Builder ℚ, TornadoCircuit.synthesize (1 : ℚ) 5 [] [] = some b ∧
      (∃ A : ℕ → Fin 3 → ℚ, Satisfies b.shape A (instOf (-1) 5) ∧
        A 1 0 ≠ A 1 1) ∧
      ¬ (∃ (nullifier secret : ℚ) (es bs : List ℚ),
          instOf (-1 : ℚ) 5 0 = nullifier * nullifier ∧
          compute_root (nullifier * secret) es bs =
            some (instOf (-1 : ℚ) 5 1)) := by
  refine ⟨⟨[(1, 1, 0), (1, 1, 1 * 1), (1, 5, 0), (1, 5, 1 * 5)], [1, 3], [], [],
    [((0, 0), (1, 0)), ((0, 1), (1, 1)), ((2, 0), (3, 0)), ((2, 1), (3, 1))],
    [((1, 2), 0), ((3, 2), 1)]⟩, rfl,
    ⟨fun r c => if r ≤ 1 then (if c.val = 0 then 1 else -1)
      else (if c.val = 0 then 1 else 5), ?_, by norm_num⟩, ?_⟩
  · refine ⟨fun r => ?_, fun r => ?_, fun r => ?_, fun r => ?_,
      fun p hp => ?_, fun p hp => ?_⟩
    · show hashGatePoly (selVal [1, 3] r) _ _ _ = 0
      by_cases h1 : r = 1
      · subst h1
        rw [selVal, if_pos (by norm_num)]
        norm_num [hashGatePoly]
      · by_cases h3 : r = 3
        · subst h3
          rw [selVal, if_pos (by norm_num)]
          norm_num [hashGatePoly]
        · rw [selVal, if_neg (by simp [h1, h3]), hashGatePoly]
          ring
    · show boolGatePoly (selVal [] r) _ = 0
      rw [selVal, if_neg (by simp), boolGatePoly]
      ring
    · show swapGatePoly1 (selVal [] r) _ _ _ _ = 0
      rw [selVal, if_neg (by simp), swapGatePoly1]
      ring
    · show swapGatePoly2 (selVal [] r) _ _ _ _ = 0
      rw [selVal, if_neg (by simp), swapGatePoly2]
      ring
    · have hp' : p ∈ ([((0, 0), (1, 0)), ((0, 1), (1, 1)), ((2, 0), (3, 0)),
        ((2, 1), (3, 1))] : List (CellRef × CellRef)) := hp
      simp only [List.mem_cons, List.not_mem_nil, or_false] at hp'
      rcases hp' with rfl | rfl | rfl | rfl <;> norm_num
    · have hp' : p ∈ ([((1, 2), 0), ((3, 2), 1)] : List (CellRef × ℕ)) := hp
      simp only [List.mem_cons, List.not_mem_nil, or_false] at hp'
      rcases hp' with rfl | rfl <;> norm_num [instOf]
  · rintro ⟨nu, s, es, bs, h0, h1⟩
    rw [show instOf (-1 : ℚ) 5 0 = -1 from rfl] at h0
    have hnn := mul_self_nonneg nu
    rw [← h0] at hnn
    norm_num at hnn

/-- Claim C6 (amended): for the standalone Merkle circuit with the honest
witness leaf 123, siblings [2, 7, 6, 5, 5, 4] and bits [0, 1, 1, 0, 1, 0],
the synthesized grid satisfies the circuit for public input
(123, 1033200) — the product of the siblings is 8400, so the root is
123 * 8400 = 1033200, not the 723240 stated in the claim; any public
input differing from (123, 1033200) in either slot fails a binding
against the unchanged witness grid, and in particular both (123, 723240)
and (123, 723241) are rejected. -/
theorem merkle_accept_reject :
    ∃ b : Builder ℚ,
      MerkleCircuit.synthesize (123 : ℚ) [2, 7, 6, 5, 5, 4] [0, 1, 1, 0, 1, 0] =
        some b ∧
      Satisfies b.shape b.assign (instOf 123 1033200) ∧
      (∀ inst : ℕ → ℚ, (inst 0 ≠ 123 ∨ inst 1 ≠ 1033200) →
        ¬ Satisfies b.shape b.assign inst) ∧
      ¬ Satisfies b.shape b.assign (instOf 123 723240) ∧
      ¬ Satisfies b.shape b.assign (instOf 123 723241) := by
  obtain ⟨b, hsyn, hiff⟩ := merkle_circuit_sat (123 : ℚ) [2, 7, 6, 5, 5, 4]
    [0, 1, 1, 0, 1, 0] (by norm_num) (by norm_num)
  have hroot : computeRootGo (123 : ℚ) [2, 7, 6, 5, 5, 4] [0, 1, 1, 0, 1, 0] =
      1033200 := by
    norm_num [computeRootGo, hash_values]
  have hgen : ∀ inst : ℕ → ℚ, (inst 0 ≠ 123 ∨ inst 1 ≠ 1033200) →
      ¬ Satisfies b.shape b.assign inst := by
    intro inst hne hs
    obtain ⟨h0, h1⟩ := (hiff inst).mp hs
    rw [hroot] at h1
    rcases hne with h | h
    · exact h h0
    · exact h h1
  refine ⟨b, hsyn, ?_, hgen, ?_, ?_⟩
  · refine (hiff _).mpr ⟨by norm_num [instOf], ?_⟩
    rw [hroot]
    norm_num [instOf]
  · refine hgen _ (Or.inr ?_)
    norm_num [instOf]
  · refine hgen _ (Or.inr ?_)
    norm_num [instOf]

/-- Claim C6 counterexample: the claim's concrete acceptance fails — the
honestly synthesized Merkle grid for leaf 123, siblings [2, 7, 6, 5, 5, 4]
and bits [0, 1, 1, 0, 1, 0] does not satisfy the circuit for public input
(123, 723240); the root cell actually holds 1033200 = 123 * 8400. -/
theorem merkle_accept_reject_counterexample :
    ∃ b : Builder ℚ,
      MerkleCircuit.synthesize (123 : ℚ) [2, 7, 6, 5, 5, 4] [0, 1, 1, 0, 1, 0] =
        some b ∧
      ¬ Satisfies b.shape b.assign (instOf 123 723240) ∧
      Satisfies b.shape b.assign (instOf 123 1033200) := by
  obtain ⟨b, hsyn, hiff⟩ := merkle_circuit_sat (123 : ℚ) [2, 7, 6, 5, 5, 4]
    [0, 1, 1, 0, 1, 0] (by norm_num) (by norm_num)
  have hroot : computeRootGo (123 : ℚ) [2, 7, 6, 5, 5, 4] [0, 1, 1, 0, 1, 0] =
      1033200 := by
    norm_num [computeRootGo, hash_values]
  refine ⟨b, hsyn, ?_, ?_⟩
  · intro hs
    have h1 := ((hiff _).mp hs).2
    rw [hroot] at h1
    norm_num [instOf] at h1
  · refine (hiff _).mpr ⟨by norm_num [instOf], ?_⟩
    rw [hroot]
    norm_num [instOf]

/-- Claim C7 counterexample: a call of prove_tree_root with path sequences
of unequal lengths — empty path_elements against one path index — is not
aborted: it succeeds, returning the builder and the leaf unchanged, so
unequal lengths are not rejected before constraint generation in every
case. -/
theorem path_length_counterexample :
    MerkleChip.prove_tree_root (Builder.empty ℚ) ⟨0, 0, 5⟩ [] [0] =
      some (Builder.empty ℚ, ⟨0, 0, 5⟩) ∧
    ([] : List ℚ).length ≠ [(0 : ℚ)].length := ⟨rfl, by norm_num⟩

/-- Claim C7 (amended): prove_tree_root performs no length check.  The
loop indexes path_indices at each position of path_elements, so when
path_indices is strictly shorter, construction aborts with the indexing
panic (modelled as none); when path_elements is the shorter or equal
sequence, no error occurs at all — the surplus indices are silently
ignored and a chain of path_elements.length Merkle-step regions (three
rows each) is emitted. -/
theorem prove_tree_root_length_behavior {F : Type} [Field F] [DecidableEq F]
    (b : Builder F) (leaf : ACell F) (path_elements path_indices : List F) :
    (MerkleChip.prove_tree_root b leaf path_elements path_indices = none ↔
      path_indices.length < path_elements.length) ∧
    (∀ bd : Builder F × ACell F,
      MerkleChip.prove_tree_root b leaf path_elements path_indices = some bd →
      bd.1.rows.length = b.rows.length + 3 * path_elements.length) := by
  induction path_elements generalizing path_indices b leaf with
  | nil =>
    refine ⟨by simp [MerkleChip.prove_tree_root], ?_⟩
    intro bd h
    have h' := Option.some.inj h
    subst h'
    simp
  | cons e es ih =>
    cases path_indices with
    | nil =>
      refine ⟨by simp [MerkleChip.prove_tree_root], ?_⟩
      intro bd h
      simp [MerkleChip.prove_tree_root] at h
    | cons i is =>
      obtain ⟨ih1, ih2⟩ := ih (MerkleChip.merkle_prove_layer b leaf e i).1
        (MerkleChip.merkle_prove_layer b leaf e i).2 is
      obtain ⟨_, _, _, _, _, s6, _, _⟩ := layer_struct b leaf e i
      constructor
      · have heq : MerkleChip.prove_tree_root b leaf (e :: es) (i :: is) =
            MerkleChip.prove_tree_root (MerkleChip.merkle_prove_layer b leaf e i).1
              (MerkleChip.merkle_prove_layer b leaf e i).2 es is := rfl
        rw [heq, ih1]
        simp
      · intro bd h
        have h' : MerkleChip.prove_tree_root
            (MerkleChip.merkle_prove_layer b leaf e i).1
            (MerkleChip.merkle_prove_layer b leaf e i).2 es is = some bd := h
        have := ih2 bd h'
        rw [this, s6, List.length_cons]
        ring

/-- Claim C8: synthesis is a pure function of the witness and the public
input — in this embedding each circuit's synthesis is a Lean function, so
two runs on equal inputs produce equal builders (the same value in every
cell, the same enabled selectors, the same copy constraints and bindings)
and equivalent accept/reject outcomes. -/
theorem synthesis_deterministic {F : Type} [Field F] [DecidableEq F]
    (a1 c1 a2 c2 leaf1 leaf2 nu1 s1 nu2 s2 : F) (pe1 pi1 pe2 pi2 : List F)
    (inst1 inst2 : ℕ → F)
    (hha : a1 = a2) (hhc : c1 = c2) (hleaf : leaf1 = leaf2)
    (hnu : nu1 = nu2) (hsec : s1 = s2) (hpe : pe1 = pe2) (hpi : pi1 = pi2)
    (hinst : inst1 = inst2) :
    HashCircuit.synthesize a1 c1 = HashCircuit.synthesize a2 c2 ∧
    MerkleCircuit.synthesize leaf1 pe1 pi1 = MerkleCircuit.synthesize leaf2 pe2 pi2 ∧
    TornadoCircuit.synthesize nu1 s1 pe1 pi1 =
      TornadoCircuit.synthesize nu2 s2 pe2 pi2 ∧
    (Satisfies (HashCircuit.synthesize a1 c1).shape
        (HashCircuit.synthesize a1 c1).assign inst1 ↔
      Satisfies (HashCircuit.synthesize a2 c2).shape
        (HashCircuit.synthesize a2 c2).assign inst2) ∧
    (∀ b1 b2 : Builder F, TornadoCircuit.synthesize nu1 s1 pe1 pi1 = some b1 →
      TornadoCircuit.synthesize nu2 s2 pe2 pi2 = some b2 →
      b1 = b2 ∧ (Satisfies b1.shape b1.assign inst1 ↔
        Satisfies b2.shape b2.assign inst2)) := by
  subst hha hhc hleaf hnu hsec hpe hpi hinst
  refine ⟨rfl, rfl, rfl, Iff.rfl, ?_⟩
  intro b1 b2 h1 h2
  rw [h1] at h2
  have hb := Option.some.inj h2
  subst hb
  exact ⟨rfl, Iff.rfl⟩

/-- Witness for C8 at a concrete input. -/
theorem synthesis_deterministic_witness :
    HashCircuit.synthesize (11 : ℚ) 7 = HashCircuit.synthesize (11 : ℚ) 7 ∧
    MerkleCircuit.synthesize (123 : ℚ) [2, 7] [0, 1] =
      MerkleCircuit.synthesize (123 : ℚ) [2, 7] [0, 1] ∧
    TornadoCircuit.synthesize (2 : ℚ) 3 [2, 7] [0, 1] =
      TornadoCircuit.synthesize (2 : ℚ) 3 [2, 7] [0, 1] ∧
    (Satisfies (HashCircuit.synthesize (11 : ℚ) 7).shape
        (HashCircuit.synthesize (11 : ℚ) 7).assign (instOf 77 0) ↔
      Satisfies (HashCircuit.synthesize (11 : ℚ) 7).shape
        (HashCircuit.synthesize (11 : ℚ) 7).assign (instOf 77 0)) ∧
    (∀ b1 b2 : Builder ℚ, TornadoCircuit.synthesize (2 : ℚ) 3 [2, 7] [0, 1] = some b1 →
      TornadoCircuit.synthesize (2 : ℚ) 3 [2, 7] [0, 1] = some b2 →
      b1 = b2 ∧ (Satisfies b1.shape b1.assign (instOf 77 0) ↔
        Satisfies b2.shape b2.assign (instOf 77 0))) :=
  synthesis_deterministic 11 7 11 7 123 123 2 3 2 3 [2, 7] [0, 1] [2, 7] [0, 1]
    (instOf 77 0) (instOf 77 0) rfl rfl rfl rfl rfl rfl rfl rfl

theorem layer_val {F : Type} [Field F] [DecidableEq F] (b : Builder F)
    (node : ACell F) (e i : F) :
    (MerkleChip.merkle_prove_layer b node e i).2.val =
      (if i = 0 then node.val * e else e * node.val) := by
  by_cases hi : i = 0 <;> simp [MerkleChip.merkle_prove_layer, HashChip.hash, hi]

theorem prove_tree_root_val {F : Type} [Field F] [DecidableEq F] (elems : List F) :
    ∀ (inds : List F) (b : Builder F) (leaf : ACell F) (bd : Builder F × ACell F),
    MerkleChip.prove_tree_root b leaf elems inds = some bd →
    bd.2.val = leaf.val * elems.prod := by
  induction elems with
  | nil =>
    intro inds b leaf bd h
    have h' := Option.some.inj h
    subst h'
    simp
  | cons e es ih =>
    intro inds b leaf bd h
    cases inds with
    | nil => simp [MerkleChip.prove_tree_root] at h
    | cons i is =>
      have h' : MerkleChip.prove_tree_root
          (MerkleChip.merkle_prove_layer b leaf e i).1
          (MerkleChip.merkle_prove_layer b leaf e i).2 es is = some bd := h
      have hv := ih is _ _ _ h'
      rw [hv, layer_val]
      by_cases hi : i = 0 <;> simp [hi, List.prod_cons] <;> ring

/-- Claim C9 (implicit): because the placeholder hash is field
multiplication, the digest computed by prove_tree_root does not depend on
the path_indices witness — for one sibling sequence and any two
equal-length boolean bit sequences, both runs yield the same final digest
value, namely the leaf multiplied by the product of all siblings. -/
theorem root_independent_of_path_indices {F : Type} [Field F] [DecidableEq F]
    (b1 b2 : Builder F) (leaf1 leaf2 : ACell F) (elems bs1 bs2 : List F)
    (bd1 bd2 : Builder F × ACell F)
    (hbits1 : ∀ j ∈ bs1, j = 0 ∨ j = 1) (hbits2 : ∀ j ∈ bs2, j = 0 ∨ j = 1)
    (hlen1 : bs1.length = elems.length) (hlen2 : bs2.length = elems.length)
    (hval : leaf1.val = leaf2.val)
    (h1 : MerkleChip.prove_tree_root b1 leaf1 elems bs1 = some bd1)
    (h2 : MerkleChip.prove_tree_root b2 leaf2 elems bs2 = some bd2) :
    bd1.2.val = leaf1.val * elems.prod ∧ bd2.2.val = leaf2.val * elems.prod ∧
    bd1.2.val = bd2.2.val := by
  have v1 := prove_tree_root_val elems bs1 b1 leaf1 bd1 h1
  have v2 := prove_tree_root_val elems bs2 b2 leaf2 bd2 h2
  exact ⟨v1, v2, by rw [v1, v2, hval]⟩

/-- Witness for C9 at a concrete input: sibling sequence [2, 7] folded
with bits [0, 1] and with bits [1, 0] yields the same digest. -/
theorem root_independent_witness :
    ∃ bd1 bd2 : Builder ℚ × ACell ℚ,
      MerkleChip.prove_tree_root (Builder.empty ℚ) ⟨0, 0, 123⟩ [2, 7] [0, 1] =
        some bd1 ∧
      MerkleChip.prove_tree_root (Builder.empty ℚ) ⟨0, 0, 123⟩ [2, 7] [1, 0] =
        some bd2 ∧
      bd1.2.val = (⟨0, 0, 123⟩ : ACell ℚ).val * ([2, 7] : List ℚ).prod ∧
      bd2.2.val = (⟨0, 0, 123⟩ : ACell ℚ).val * ([2, 7] : List ℚ).prod ∧
      bd1.2.val = bd2.2.val := by
  refine ⟨_, _, rfl, rfl, ?_⟩
  exact root_independent_of_path_indices (Builder.empty ℚ) (Builder.empty ℚ)
    ⟨0, 0, 123⟩ ⟨0, 0, 123⟩ [2, 7] [0, 1] [1, 0] _ _ (by norm_num) (by norm_num)
    (by norm_num) (by norm_num) rfl rfl rfl

/-- Claim C10 (implicit): with empty path_elements, prove_tree_root
performs zero iterations and returns the builder and the leaf cell
unchanged whatever path_indices holds; consequently the standalone Merkle
circuit synthesized with an empty path enables no hash, swap or boolean
selector, and its constraint system is satisfiable exactly for those
public inputs whose slot 1 (root) equals slot 0 (leaf). -/
theorem empty_path_identity {F : Type} [Field F] [DecidableEq F]
    (b : Builder F) (leaf : ACell F) (path_indices : List F) (leafval : F)
    (inst : ℕ → F) :
    MerkleChip.prove_tree_root b leaf [] path_indices = some (b, leaf) ∧
    (∃ mb : Builder F, MerkleCircuit.synthesize leafval [] path_indices = some mb ∧
      mb.hashRows = [] ∧ mb.swapRows = [] ∧ mb.boolRows = [] ∧
      ((∃ A : ℕ → Fin 3 → F, Satisfies mb.shape A inst) ↔ inst 1 = inst 0)) := by
  refine ⟨rfl, ⟨⟨[(leafval, 0, 0)], [], [], [], [],
    [((0, 0), 0), ((0, 0), 1)]⟩, rfl, rfl, rfl, rfl, ?_⟩⟩
  constructor
  · rintro ⟨A, hs⟩
    have h0 := hs.bind_eq (p := (((0, 0) : CellRef), 0))
      (show _ ∈ [(((0, 0) : CellRef), 0), (((0, 0) : CellRef), 1)] by simp)
    have h1 := hs.bind_eq (p := (((0, 0) : CellRef), 1))
      (show _ ∈ [(((0, 0) : CellRef), 0), (((0, 0) : CellRef), 1)] by simp)
    rw [← h0, ← h1]
  · intro h
    refine ⟨fun _ _ => inst 0, fun r => ?_, fun r => ?_, fun r => ?_, fun r => ?_,
      fun p hp => ?_, fun p hp => ?_⟩
    · show hashGatePoly (selVal [] r) _ _ _ = 0
      rw [selVal, if_neg (by simp)]
      exact hashGatePoly_sel_zero _ _ _
    · show boolGatePoly (selVal [] r) _ = 0
      rw [selVal, if_neg (by simp)]
      exact boolGatePoly_sel_zero _
    · show swapGatePoly1 (selVal [] r) _ _ _ _ = 0
      rw [selVal, if_neg (by simp)]
      exact swapGatePoly1_sel_zero _ _ _ _
    · show swapGatePoly2 (selVal [] r) _ _ _ _ = 0
      rw [selVal, if_neg (by simp)]
      exact swapGatePoly2_sel_zero _ _ _ _
    · have hp' : p ∈ ([] : List (CellRef × CellRef)) := hp
      simp at hp'
    · have hp' : p ∈ [(((0, 0) : CellRef), 0), (((0, 0) : CellRef), 1)] := hp
      simp only [List.mem_cons, List.not_mem_nil, or_false] at hp'
      rcases hp' with rfl | rfl
      · rfl
      · exact h.symm

end Tornado
